import Mathlib

/-!
Verification development for the `joie` sentence-level full-text search engine
(crates `engine`, `storage`; the live query implementation is the
`engine/src/query/` module tree).

The Rust sources are shallowly embedded: machine integers (`u32`) become `Nat`
(no arithmetic in the embedded code ever overflows 32 bits for the inputs we
consider; where byte-level reinterpretation of `u32` matters we take the value
modulo 2^32 explicitly), in-place mutation becomes explicit state passing,
`Vec` becomes `List`, and operations that can panic are either modelled with
`Option` or noted at their definition site.  Rayon parallel combinators
(`par_iter().map`, `par_sort`, `rayon::join`, ...) are deterministic
fork-join parallelism; they are modelled by the corresponding sequential
combinator, which produces the same value.

Loops are modelled as fuel-indexed structural recursions (the fuel passed by
the wrapper is always sufficient, and adequacy is part of the proofs); this
keeps every definition computable by `decide` in the kernel.
-/

/-! ## Sentence ids (`engine/src/sentence.rs`)

`SentenceId { doc: u32, sentence: u32 }` with `#[derive(PartialOrd, Ord)]`,
i.e. lexicographic comparison on `(doc, sentence)`.  The all-zero id is the
tombstone (`SentenceId::zeroed()`); `is_valid` tests against it. -/

structure SentenceId where
  doc : Nat
  sentence : Nat
deriving DecidableEq, Repr

def SentenceId.zeroed : SentenceId := ⟨0, 0⟩

def SentenceId.isValid (s : SentenceId) : Bool := s ≠ SentenceId.zeroed

/-- The derived `Ord`: strict lexicographic comparison on `(doc, sentence)`. -/
def SentenceId.ltb (a b : SentenceId) : Bool :=
  a.doc < b.doc || (a.doc = b.doc && a.sentence < b.sentence)

/-- Non-strict comparison corresponding to the derived `Ord`. -/
def SentenceId.leb (a b : SentenceId) : Bool :=
  a.doc < b.doc || (a.doc = b.doc && a.sentence ≤ b.sentence)

/-- Sortedness by the derived `Ord`, non-strict (duplicates allowed). -/
def SortedLe (l : List SentenceId) : Prop :=
  l.Pairwise (fun a b => a.leb b = true)

/-- Strictly ascending (sorted, no duplicates). -/
def SortedLt (l : List SentenceId) : Prop :=
  l.Pairwise (fun a b => a.ltb b = true)

instance : DecidablePred SortedLe := fun _ =>
  inferInstanceAs (Decidable (List.Pairwise _ _))

instance : DecidablePred SortedLt := fun _ =>
  inferInstanceAs (Decidable (List.Pairwise _ _))

/-! ## Scalar merge (`engine/src/id_list.rs`, `scalar_merge`)

A textbook two-pointer merge: while both slices are nonempty, take from `a`
exactly when `a[i] < b[j]` (ties take from `b`), then copy the two remainders.
The index-based loop is modelled as fuel-indexed recursion on the two list
tails; one element is consumed per step, so `|a| + |b| + 1` fuel always
suffices. -/

def scalar_merge_go : Nat → List SentenceId → List SentenceId → List SentenceId
  | 0, _, _ => []
  | _ + 1, [], b => b
  | _ + 1, a, [] => a
  | fuel + 1, x :: xs, y :: ys =>
    if x.ltb y then x :: scalar_merge_go fuel xs (y :: ys)
    else y :: scalar_merge_go fuel (x :: xs) ys

def scalar_merge (a b : List SentenceId) : List SentenceId :=
  scalar_merge_go (a.length + b.length + 1) a b

/-! ## Rust `slice::binary_search` (called by `par_merge` and the intersection
retains)

The standard library loop: `left = 0`, `right = len`; while `left < right`,
probe `mid = left + (right - left) / 2`, narrowing to `[mid+1, right)` when
`self[mid] < v`, to `[left, mid)` when `v < self[mid]`, and returning
`Ok(mid)` on equality; on exhaustion it returns `Err(left)`.  The interval
shrinks strictly each iteration, so `len + 1` fuel always suffices. -/

inductive BsResult where
  | found (i : Nat)
  | notFound (i : Nat)
deriving DecidableEq, Repr

def BsResult.isOk : BsResult → Bool
  | .found _ => true
  | .notFound _ => false

/-- The collapsed index: `match res { Ok(x) => x, Err(x) => x }` as used by
`par_merge`. -/
def BsResult.index : BsResult → Nat
  | .found i => i
  | .notFound i => i

def binary_search_go (l : List SentenceId) (v : SentenceId) :
    Nat → Nat → Nat → BsResult
  | 0, left, _ => .notFound left
  | fuel + 1, left, right =>
    if left < right then
      let mid := left + (right - left) / 2
      let x := l.getD mid SentenceId.zeroed
      if x.ltb v then binary_search_go l v fuel (mid + 1) right
      else if v.ltb x then binary_search_go l v fuel left mid
      else .found mid
    else .notFound left

def binary_search (l : List SentenceId) (v : SentenceId) : BsResult :=
  binary_search_go l v (l.length + 1) 0 l.length

/-! ## Parallel merge (`engine/src/id_list.rs`, `par_merge` / `merge_slices`)

`par_merge(a, b, out)` first swaps so the longer slice comes first; an empty
(longer) slice means nothing to do; below the 32768 threshold it falls back to
`scalar_merge`; otherwise it places the median of the longer side at its final
position (its own index plus its insertion point in the shorter side, found by
`binary_search`) and recurses on the two halves in parallel (`rayon::join`).

We split the post-swap body into `par_merge_body` (over an explicit recursion
argument) so the swap - re-applied by the source at every recursive entry -
lives in `par_merge_go` alone.  Each recursive call drops the pivot element,
so `|a| + |b| + 1` fuel always suffices.

`SentenceIdList::merge_slices` allocates `|a| + |b|` zeroed slots, lets
`par_merge` fill all of them, and wraps the result; the dedup pass below the
merge is commented out in the source, so the merge result is returned as is. -/

def par_merge_body (rec : List SentenceId → List SentenceId → List SentenceId)
    (a b : List SentenceId) : List SentenceId :=
  if a.isEmpty then []
  else if a.length < 32768 then scalar_merge a b
  else
    let pivot := a.length / 2
    let m := a.getD pivot SentenceId.zeroed
    let s := (binary_search b m).index
    rec (a.take pivot) (b.take s) ++ m :: rec (a.drop (pivot + 1)) (b.drop s)

def par_merge_go : Nat → List SentenceId → List SentenceId → List SentenceId
  | 0, _, _ => []
  | fuel + 1, a, b =>
    if b.length ≤ a.length then par_merge_body (par_merge_go fuel) a b
    else par_merge_body (par_merge_go fuel) b a

def par_merge (a b : List SentenceId) : List SentenceId :=
  par_merge_go (a.length + b.length + 1) a b

def merge_slices (a b : List SentenceId) : List SentenceId := par_merge a b

/-! ## Highlight ranges and range collapsing (`engine/src/lib.rs`,
`engine/src/highlight.rs`)

`CopyableRange { start: usize, end: usize }` (aliased as `SentenceRange` and
`Token`).  The Rust field `end` is a Lean keyword and is renamed `stop` here.

`collapse_overlapped_ranges` seeds `current` with `ranges[0]` from a fresh
iterator, but then folds over the FULL slice `ranges` again (including index
0); each step merges when `current.end > range.start`, taking the max of the
two ends, otherwise pushes `current` and restarts from `range`; finally the
accumulator is pushed. -/

structure CopyableRange where
  start : Nat
  stop : Nat
deriving DecidableEq, Repr

def collapse_go (current : CopyableRange) : List CopyableRange → List CopyableRange
  | [] => [current]
  | r :: rs =>
    if r.start < current.stop then
      collapse_go ⟨current.start, max current.stop r.stop⟩ rs
    else
      current :: collapse_go r rs

def collapse_overlapped_ranges (ranges : List CopyableRange) : List CopyableRange :=
  match ranges with
  | [] => []
  | r :: _ => collapse_go r ranges

/-- Sorted by range start, as produced by the `par_sort_by_key(|v| v.start)`
calls that precede every collapse in the source. -/
def sortedByStart (l : List CopyableRange) : Prop :=
  l.Pairwise (fun a b => a.start ≤ b.start)

instance : DecidablePred sortedByStart := fun _ =>
  inferInstanceAs (Decidable (List.Pairwise _ _))

/-! ## The database view seen by queries (`engine/src/searcher.rs`,
`storage/src/lib.rs`)

Queries read three things from `SearchEngine`:
  * `db.index.get(term)` - the posting list of a term, with misses read as the
    empty slice (`unwrap_or(&[])`): modelled as a total function;
  * `db.sentences.get(&id).unwrap()` - the archived sentence: modelled as a
    total function (the source panics when an id outside the store is looked
    up, which cannot happen for ids drawn from the posting lists);
  * `db.doc_meta.get_unchecked(id.doc)` fed to
    `document_filter.filter_document` - modelled as the composed predicate
    `DocFilter.filterDoc` on the document id.

The archived sentence view carries the fields highlighting reads: the token
byte-ranges, the packed term-id sequence (index-aligned with the tokens), and
`terms_by_value` (term id to ascending token indices, with misses read as the
empty list, mirroring the `let Some(tokens) = ... else continue`). -/

structure Stc where
  tokens : List CopyableRange
  terms : List Nat
  termsByValue : Nat → List Nat

structure Db where
  index : Nat → List SentenceId
  sentence : SentenceId → Stc

structure DocFilter where
  needed : Bool
  filterDoc : Nat → Bool

/-- The unit document filter `()`: `needed() = false` and `filter_document`
always true (`engine/src/query/filter.rs`). -/
def unitDF : DocFilter := ⟨false, fun _ => true⟩

/-- `engine/src/query/mod.rs`, `CallerType`. -/
inductive CallerType where
  | intersection
  | union
  | topLevel
deriving DecidableEq, Repr

def CallerType.intersect : CallerType → Bool
  | .intersection => true
  | _ => false

/-! ## `SentenceIdList` operations (`engine/src/id_list.rs`)

`retain` overwrites every currently-valid slot that fails the predicate with
the tombstone; the length does not change.  Iteration (`into_iter`) skips
tombstones, i.e. filters on `is_valid`. -/

def retain (keep : SentenceId → Bool) (l : List SentenceId) : List SentenceId :=
  l.map (fun slot => if slot.isValid && !keep slot then SentenceId.zeroed else slot)

/-- `par_sort` / `par_sort_unstable` on sentence ids: sorting by the total
derived `Ord`, under which any correct sort produces the same list (equal
elements are indistinguishable), so a simple insertion sort is an exact
model. -/
def sortIds (l : List SentenceId) : List SentenceId :=
  List.insertionSort (fun a b => a.leb b = true) l

/-- `sort_by_key(|v| v.len())` on a list of posting lists: a stable sort, and
a stable sort by a key has a unique result, so stable insertion sort is an
exact model. -/
def sortByLen (sets : List (List SentenceId)) : List (List SentenceId) :=
  List.insertionSort (fun a b => a.length ≤ b.length) sets

/-- `Vec::dedup`: drops consecutive repeats, keeping the first of each run
(when `x = y`, continuing the scan from `x` or from `y` is the same, which
makes the recursion structural). -/
def dedupAdj : List SentenceId → List SentenceId
  | [] => []
  | [x] => [x]
  | x :: y :: rest =>
    if x = y then dedupAdj (y :: rest) else x :: dedupAdj (y :: rest)

def bsearchContains (l : List SentenceId) (v : SentenceId) : Bool :=
  (binary_search l v).isOk

/-! ## `find_sentence_ids` for each query type (`engine/src/query/`)

`phrase.rs` and `intersect.rs` (`IntersectingPhraseQuery`) share, verbatim,
the same `match DF::needed()` over the collected posting lists: seed from the
smallest list and retain by binary search in each further list (conjoined
with the document filter when one is needed); with a single list and a needed
filter, retain by the filter alone.  That match is factored out here as
`phrase_filter_loop`. -/

def phrase_filter_loop (df : DocFilter) (seed : List SentenceId)
    (rest : List (List SentenceId)) : List SentenceId :=
  if df.needed then
    if rest.isEmpty then
      retain (fun id => df.filterDoc id.doc) seed
    else
      rest.foldl (fun acc s =>
        retain (fun v => df.filterDoc v.doc && bsearchContains s v) acc) seed
  else
    rest.foldl (fun acc s => retain (fun v => bsearchContains s v) acc) seed

/-- `PhraseQuery::find_sentence_ids`: collect each term's posting list
(empty on miss), return the empty id list when the phrase has no terms, sort
the lists ascending by length, seed from the smallest, and retain. -/
def phrase_find_ids (db : Db) (df : DocFilter) (phrase : List Nat) : List SentenceId :=
  let term_sets := phrase.map (fun t => db.index t)
  if term_sets.isEmpty then []
  else
    let sorted := sortByLen term_sets
    phrase_filter_loop df (sorted.headD []) sorted.tail

/-- `IntersectingPhraseQuery::find_sentence_ids`: the posting lists of ALL
terms of both phrases are pooled and intersected with the same loop.  There
is no empty-pool guard in the source (`term_sets[0]` panics when both phrases
are empty); `headD []` stands in for that unreachable panic. -/
def intersecting_phrase_find_ids (db : Db) (df : DocFilter)
    (phrases : List (List Nat)) : List SentenceId :=
  let term_sets := (phrases.map (fun p => p.map (fun t => db.index t))).flatten
  let sorted := sortByLen term_sets
  phrase_filter_loop df (sorted.headD []) sorted.tail

/-- `KeywordsQuery::find_sentence_ids`: with exactly two keywords, merge the
two posting lists and `dedup` unless called from an intersection; otherwise
concatenate all posting lists, sort, dedup.  Finally retain by the document
filter when one is needed. -/
def keywords_find_ids (db : Db) (df : DocFilter) (keywords : List Nat)
    (caller : CallerType) : List SentenceId :=
  let ids :=
    match keywords with
    | [lhs, rhs] =>
      let merged := merge_slices (db.index lhs) (db.index rhs)
      if !caller.intersect then dedupAdj merged else merged
    | _ => dedupAdj (sortIds (keywords.map (fun t => db.index t)).flatten)
  if df.needed then retain (fun id => df.filterDoc id.doc) ids else ids

/-- `IntersectingQuery::find_sentence_ids`, after the children have been
evaluated (with `caller = Intersection`): sort the result lists by length;
when there are at least two, sort the smallest by value and retain by binary
search in each further list (each sorted by value first) conjoined with the
document filter; `swap_remove(0)` then returns the retained smallest list.
With one list it is returned unchanged; with none, `swap_remove(0)` panics in
the source (unreachable from the parser), modelled as the empty list. -/
def intersect_find_ids (df : DocFilter) (sets : List (List SentenceId)) :
    List SentenceId :=
  match sortByLen sets with
  | [] => []
  | first :: rest =>
    if rest.isEmpty then first
    else
      rest.foldl (fun acc s =>
        retain (fun v => bsearchContains (sortIds s) v && df.filterDoc v.doc) acc)
        (sortIds first)

/-- `UnionQuery::find_sentence_ids`, after the children have been evaluated
(with `caller = Union`): flatten, drop tombstones, sort, dedup. -/
def union_find_ids (sets : List (List SentenceId)) : List SentenceId :=
  dedupAdj (sortIds (sets.flatten.filter SentenceId.isValid))

/-! ## The query tree

The boxed `dyn Query` trees built by the parser contain phrase, keywords,
intersecting (boxed children plus a filter), intersecting-phrase, and union
nodes; `SmallVec` child vectors are lists here.  The `Yoked*` wrappers
(`YokedPhraseQuery`, ...) only forward the three trait methods to the inner
query and are identities in this model. -/

inductive Qry where
  | phrase (terms : List Nat) (df : DocFilter)
  | keywords (ks : List Nat) (df : DocFilter)
  | intersecting (children : List Qry) (df : DocFilter)
  | intersectingPhrase (phrases : List (List Nat)) (df : DocFilter)
  | unionQ (children : List Qry)

mutual

def find_sentence_ids (db : Db) : Qry → CallerType → List SentenceId
  | .phrase ts df, _ => phrase_find_ids db df ts
  | .keywords ks df, caller => keywords_find_ids db df ks caller
  | .intersecting cs df, _ => intersect_find_ids df (find_each db cs .intersection)
  | .intersectingPhrase ps df, _ => intersecting_phrase_find_ids db df ps
  | .unionQ cs, _ => union_find_ids (find_each db cs .union)

def find_each (db : Db) : List Qry → CallerType → List (List SentenceId)
  | [], _ => []
  | q :: qs, c => find_sentence_ids db q c :: find_each db qs c

end

/-- Database wellformedness, as established by the builder (claim C5 proves
it): every posting list is strictly ascending and tombstone-free. -/
def WfDb (db : Db) : Prop :=
  ∀ t, SortedLt (db.index t) ∧ ∀ v ∈ db.index t, v.isValid = true

/-! ## The scenario corpus (spec section 8)

doc 1 = "the quick brown fox", doc 2 = "quick sand is slow".  Interning in
build order (the English stemmer and lowercasing are the identity on these
words): the=1, quick=2, brown=3, fox=4, sand=5, is=6, slow=7.  Tokens are
byte ranges, terms the index-aligned term ids, `terms_by_value` the ascending
token-index lists; the posting lists below are exactly what the builder
produces for this corpus (sorted, deduplicated, tombstone-free). -/

def scenario_index (t : Nat) : List SentenceId :=
  if t = 1 then [⟨1, 0⟩]
  else if t = 2 then [⟨1, 0⟩, ⟨2, 0⟩]
  else if t = 3 then [⟨1, 0⟩]
  else if t = 4 then [⟨1, 0⟩]
  else if t = 5 then [⟨2, 0⟩]
  else if t = 6 then [⟨2, 0⟩]
  else if t = 7 then [⟨2, 0⟩]
  else []

def scenario_s1 : Stc :=
  ⟨[⟨0, 3⟩, ⟨4, 9⟩, ⟨10, 15⟩, ⟨16, 19⟩], [1, 2, 3, 4],
    fun t => if t = 1 then [0] else if t = 2 then [1]
      else if t = 3 then [2] else if t = 4 then [3] else []⟩

def scenario_s2 : Stc :=
  ⟨[⟨0, 5⟩, ⟨6, 10⟩, ⟨11, 13⟩, ⟨14, 18⟩], [2, 5, 6, 7],
    fun t => if t = 2 then [0] else if t = 5 then [1]
      else if t = 6 then [2] else if t = 7 then [3] else []⟩

def scenarioDb : Db :=
  ⟨scenario_index,
    fun v => if v = ⟨1, 0⟩ then scenario_s1
      else if v = ⟨2, 0⟩ then scenario_s2
      else ⟨[], [], fun _ => []⟩⟩

/-- `FrozenTermMap::term` for the scenario corpus (lowercasing and the
English stemmer are the identity on these seven words; the MPH lookup
returns the interned id, `None` for out-of-vocabulary stems). -/
def scenario_term (w : String) : Option Nat :=
  if w = "the" then some 1
  else if w = "quick" then some 2
  else if w = "brown" then some 3
  else if w = "fox" then some 4
  else if w = "sand" then some 5
  else if w = "is" then some 6
  else if w = "slow" then some 7
  else none

/-! ## Frozen term map (`engine/src/term_map.rs`)

`tokenize_phrase` maps each unicode word of the query to `term(word)`,
substituting `0` for out-of-vocabulary words (`unwrap_or(0u32)`).  Unicode
word segmentation is modelled by passing the segmented word list; for the
ASCII scenario strings it splits on single spaces. -/

def tokenize_phrase (term : String → Option Nat) (words : List String) : List Nat :=
  words.map (fun w => (term w).getD 0)

/-- Unicode word segmentation of the concrete query strings used in the
scenarios. -/
def scenario_words (s : String) : List String :=
  if s = "quick brown" then ["quick", "brown"]
  else if s = "" then []
  else [s]

def scenario_tok (s : String) : List Nat :=
  tokenize_phrase scenario_term (scenario_words s)

/-! ## Highlighters (`engine/src/query/phrase.rs`, `keywords.rs`) and
`filter_map` (`engine/src/query/`)

`PhraseHighlighter` concatenates the little-endian `u32` bytes of the phrase
(`bytemuck::cast_slice`) and runs `memchr::memmem::Finder` over the packed
bytes of the sentence's `terms`; each (non-overlapping, leftmost) match at
byte index `idx` highlights `tokens[idx/4].start .. tokens[idx/4 + len-1].end`.
For an EMPTY phrase the needle is empty, `find_iter` yields a match at 0, and
`idx/4 + 0 - 1` underflows `usize`, so the token indexing panics: modelled as
`none`.  For nonempty phrases every match index keeps both token lookups in
bounds (|tokens| = |terms|), so the `getD` defaults are never read. -/

def leBytes (n : Nat) : List Nat :=
  [n % 256, n / 256 % 256, n / 65536 % 256, n / 16777216 % 256]

def termBytes (ts : List Nat) : List Nat := (ts.map leBytes).flatten

/-- `memmem::find_iter`: leftmost, non-overlapping matches of a nonempty
needle; after a match at `p` the scan resumes at `p + |needle|`.  Each step
advances the position, so `|haystack| + 1` fuel always suffices. -/
def memmem_go (needle hay : List Nat) : Nat → Nat → List Nat
  | 0, _ => []
  | fuel + 1, p =>
    if p + needle.length ≤ hay.length then
      if needle.isPrefixOf (hay.drop p) then
        p :: memmem_go needle hay fuel (p + needle.length)
      else memmem_go needle hay fuel (p + 1)
    else []

def memmem_find_iter (needle hay : List Nat) : List Nat :=
  memmem_go needle hay (hay.length + 1) 0

def phrase_highlight (phrase : List Nat) (s : Stc) : Option (List CopyableRange) :=
  if phrase.isEmpty then none
  else
    some ((memmem_find_iter (termBytes phrase) (termBytes s.terms)).map (fun idx =>
      ⟨(s.tokens.getD (idx / 4) ⟨0, 0⟩).start,
        (s.tokens.getD (idx / 4 + phrase.length - 1) ⟨0, 0⟩).stop⟩))

/-- `par_sort_by_key(|v| v.start)` on ranges: a stable sort (unique result),
modelled exactly by stable insertion sort.  (`KeywordHighlighter` uses
`sort_unstable_by_key`, whose order among equal starts is unspecified;
insertion sort realizes one admissible order, and every concrete use below
has distinct starts.) -/
def sortRanges (l : List CopyableRange) : List CopyableRange :=
  List.insertionSort (fun a b => a.start ≤ b.start) l

/-- `KeywordHighlighter::highlight`: for each keyword, one range per token
occurrence from `terms_by_value` (missing keywords are skipped), then sort by
start. -/
def keyword_highlight (keywords : List Nat) (s : Stc) : List CopyableRange :=
  sortRanges ((keywords.map (fun k =>
    (s.termsByValue k).map (fun ti => s.tokens.getD ti ⟨0, 0⟩))).flatten)

/-! `filter_map` per query type, as `(keep, final highlighted_parts)`:

  * phrase: highlight; keep iff nonempty (`phrase.rs`);
  * keywords: the trait DEFAULT (`query/mod.rs` lines 29-31): returns `true`
    and does not touch `highlighted_parts` (empty at every call site, since
    the searcher starts from an empty list and every parent empties it by
    `append` before each child call);
  * intersecting / intersecting-phrase: run the children in order, rejecting
    as soon as one rejects (later children are then NOT evaluated); append
    their highlights; reject if none were produced; else sort by start and
    collapse;
  * union: run all children ignoring their verdicts, append highlights,
    reject iff none were produced, else sort and collapse.

`none` models a panic inside a highlighter (empty-phrase underflow).  On an
early `false` the abandoned highlight list is never observed by the searcher
(the result is dropped), so it is modelled as `[]`. -/

mutual

def filter_map : Qry → Stc → Option (Bool × List CopyableRange)
  | .phrase ts _, s => (phrase_highlight ts s).map (fun hl => (!hl.isEmpty, hl))
  | .keywords _ _, _ => some (true, [])
  | .intersecting cs _, s => and_filter_map_go cs s []
  | .intersectingPhrase ps _, s => and_phrase_filter_map_go ps s []
  | .unionQ cs, s => or_filter_map_go cs s []

def and_filter_map_go : List Qry → Stc → List CopyableRange →
    Option (Bool × List CopyableRange)
  | [], _, highlights =>
    if highlights.isEmpty then some (false, [])
    else some (true, collapse_overlapped_ranges (sortRanges highlights))
  | q :: qs, s, highlights =>
    match filter_map q s with
    | none => none
    | some (false, _) => some (false, [])
    | some (true, hl) => and_filter_map_go qs s (highlights ++ hl)

def and_phrase_filter_map_go : List (List Nat) → Stc → List CopyableRange →
    Option (Bool × List CopyableRange)
  | [], _, highlights =>
    if highlights.isEmpty then some (false, [])
    else some (true, collapse_overlapped_ranges (sortRanges highlights))
  | p :: ps, s, highlights =>
    match phrase_highlight p s with
    | none => none
    | some hl =>
      if hl.isEmpty then some (false, [])
      else and_phrase_filter_map_go ps s (highlights ++ hl)

def or_filter_map_go : List Qry → Stc → List CopyableRange →
    Option (Bool × List CopyableRange)
  | [], _, highlights =>
    if highlights.isEmpty then some (false, [])
    else some (true, collapse_overlapped_ranges (sortRanges highlights))
  | q :: qs, s, highlights =>
    match filter_map q s with
    | none => none
    | some (_, hl) => or_filter_map_go qs s (highlights ++ hl)

end

/-! ## The search façade (`engine/src/searcher.rs`, `SearchEngine::query`)

`query` evaluates `find_sentence_ids` with `caller = TopLevel`, then iterates
the non-tombstone ids in order, fetches each archived sentence, runs
`filter_map` on a fresh result (empty highlight list), and yields the result
iff `filter_map` returned true.  Fully consuming the iterator is modelled
here; a panic inside any `filter_map` (possible only for empty-phrase
highlighters) makes the whole run `none`. -/

def run_results_go (db : Db) (q : Qry) :
    List SentenceId → Option (List (SentenceId × List CopyableRange))
  | [] => some []
  | v :: vs =>
    match filter_map q (db.sentence v) with
    | none => none
    | some (keep, hl) =>
      match run_results_go db q vs with
      | none => none
      | some rest => some (if keep then (v, hl) :: rest else rest)

def run_query (db : Db) (q : Qry) : Option (List (SentenceId × List CopyableRange)) :=
  run_results_go db q ((find_sentence_ids db q .topLevel).filter (fun s => s.isValid))

/-- The sentence ids yielded by the iterator, in order. -/
def run_query_ids (db : Db) (q : Qry) : Option (List SentenceId) :=
  (run_query db q).map (List.map Prod.fst)

/-- The id sequence yielded by `SentenceIdList::into_iter()`: the
non-tombstone entries in order. -/
def idlist_iter (l : List SentenceId) : List SentenceId :=
  l.filter (fun s => s.isValid)

/-! ## Immutable maps (`storage/src/lib.rs`, `ImmutableMap`)

An `ImmutableMap` is a minimal-perfect-hash function (`ph::fmph::GOFunction`,
an external crate, modelled as an abstract `K → Option Nat`), a reordered key
array for collision verification, and a slot-indexed store.  The build loop
writes each value and key at slot `hasher.get(&k).unwrap()` into
`MaybeUninit` arrays; the `Option` layers below model the uninitialized
slots (a perfect hasher fills every slot exactly once; a miss during build
panics in the source, modelled as an out-of-range write that the list `set`
ignores).

`get`: hash the key, reject when the stored key at that slot differs, else
return the stored value (`storage/src/lib.rs`, lines 175-185). -/

structure ImmMap (K V : Type) where
  hasher : K → Option Nat
  keys : List (Option K)
  store : List (Option V)

def ImmMap.get {K V : Type} [DecidableEq K] (m : ImmMap K V) (k : K) : Option V :=
  match m.hasher k with
  | none => none
  | some idx =>
    match m.keys[idx]? with
    | some (some k2) => if k2 = k then (m.store[idx]?).bind id else none
    | _ => none

def buildImmMap {K V : Type} [DecidableEq K] (h : K → Option Nat)
    (pairs : List (K × V)) : ImmMap K V :=
  let n := pairs.length
  let filled := pairs.foldl (fun acc kv =>
    let idx := (h kv.1).getD n
    (acc.1.set idx (some kv.1), acc.2.set idx (some kv.2)))
    (List.replicate n (none : Option K), List.replicate n (none : Option V))
  ⟨h, filled.1, filled.2⟩

/-- The minimal-perfect-hash contract (spec sections 4.1 and the glossary):
the hasher maps the exact key set bijectively onto `0..N`.  Stated as a
decidable multiset equation on the hash images. -/
def PerfectOn {K : Type} (h : K → Option Nat) (keys : List K) : Prop :=
  (keys.map h).Perm ((List.range keys.length).map some)

instance {K : Type} (h : K → Option Nat) (keys : List K) : Decidable (PerfectOn h keys) :=
  inferInstanceAs (Decidable (List.Perm _ _))

/-! ## The indexing pipeline (`engine/src/builder.rs`, `engine/src/term_map.rs`)

Documents arrive as `DocumentData { id, text, metadata, data }`.  Unicode
word segmentation of `text` (the external `unicode-segmentation` crate) is
modelled by presenting each line as its `unicode_word_indices` output - a
list of `(byte offset, word)` pairs - and lowercasing plus English stemming
(the external `rust_stemmers` crate) as an abstract `stem : String → String`
applied where the source applies them.

`HashMap` / `BTreeMap` are association lists; `insert` overwrites
(`mapInsert`), and iteration order is irrelevant to every fact proved
below.  -/

structure DocumentData (D M : Type) where
  id : Nat
  lines : List (List (Nat × String))
  metadata : M
  data : D

def mapInsert {K V : Type} [DecidableEq K] (k : K) (v : V) (m : List (K × V)) :
    List (K × V) :=
  (k, v) :: m.filter (fun p => p.1 ≠ k)

/-- `TermMap::intern`: `let l = kv.len() + 1; let term = stem(term);
kv.entry(term).or_insert(l)` - ids start at 1. -/
def intern (stem : String → String) (kv : List (String × Nat)) (w : String) :
    Nat × List (String × Nat) :=
  let l := kv.length + 1
  let t := stem w
  match kv.lookup t with
  | some i => (i, kv)
  | none => (l, (t, l) :: kv)

/-- `TermMap::tokenize_sentence`: per word, a byte-range token
`start .. start + word.len()` and the interned term id; `terms_by_value`
collects, per term id, the token indices in ascending order (the source
pushes them in index order into a `BTreeMap` and then sorts each list, which
leaves them ascending). -/
def tokenize_sentence (stem : String → String) (kv : List (String × Nat))
    (words : List (Nat × String)) : Stc × List (String × Nat) :=
  let folded := words.foldl (fun acc w =>
    let r := intern stem acc.2.2 w.2
    (acc.1 ++ [(⟨w.1, w.1 + w.2.utf8ByteSize⟩ : CopyableRange)], acc.2.1 ++ [r.1], r.2))
    ([], [], kv)
  (⟨folded.1, folded.2.1,
    fun t => (List.range folded.2.1.length).filter (fun i => folded.2.1.getD i 0 = t)⟩,
   folded.2.2)

structure DatabaseBuilder (D M : Type) where
  sentence_map : List (SentenceId × Stc)
  term_to_sentence : List (Nat × List SentenceId)
  doc_metadata : List (Nat × M)
  doc_storage : List (Nat × D)
  term_map : List (String × Nat)

def emptyBuilder (D M : Type) : DatabaseBuilder D M := ⟨[], [], [], [], []⟩

/-- `term_to_sentence.entry(term).or_insert_with(Vec::new).push(id)`. -/
def pushPosting (t : Nat) (v : SentenceId) (m : List (Nat × List SentenceId)) :
    List (Nat × List SentenceId) :=
  match m.lookup t with
  | some l => mapInsert t (l ++ [v]) m
  | none => mapInsert t [v] m

/-- The per-sentence loop of `DatabaseBuilder::add_document`: tokenize each
line, assert the sentence id is not the tombstone pattern (`none` models the
panic), push the id into every contained term's posting list (once per term
OCCURRENCE; finalize dedups), and insert the sentence. -/
def add_sentences (stem : String → String) (docid : Nat) :
    Nat → List (List (Nat × String)) → DatabaseBuilder D M →
      Option (DatabaseBuilder D M)
  | _, [], bs => some bs
  | idx, line :: rest, bs =>
    let r := tokenize_sentence stem bs.term_map line
    let id : SentenceId := ⟨docid, idx⟩
    if id = SentenceId.zeroed then none
    else
      add_sentences stem docid (idx + 1) rest
        { bs with
          term_map := r.2
          term_to_sentence := r.1.terms.foldl (fun m term => pushPosting term id m)
            bs.term_to_sentence
          sentence_map := mapInsert id r.1 bs.sentence_map }

def add_document (stem : String → String) (bs : DatabaseBuilder D M)
    (doc : DocumentData D M) : Option (DatabaseBuilder D M) :=
  match add_sentences stem doc.id 0 doc.lines bs with
  | none => none
  | some bs2 =>
    some { bs2 with
      doc_storage := mapInsert doc.id doc.data bs2.doc_storage
      doc_metadata := mapInsert doc.id doc.metadata bs2.doc_metadata }

def build_all (stem : String → String) (docs : List (DocumentData D M)) :
    Option (DatabaseBuilder D M) :=
  docs.foldlM (add_document stem) (emptyBuilder D M)

/-- The posting lists written to `sentences.index.joie` by `build_in`: each
accumulated list sorted ascending and deduplicated in place. -/
def build_postings (bs : DatabaseBuilder D M) : List (Nat × List SentenceId) :=
  bs.term_to_sentence.map (fun p => (p.1, dedupAdj (sortIds p.2)))

/-- The key of `doc_metadata.last_key_value()` (a `BTreeMap`, so its maximum
key), `map_or(0, ...)`. -/
def metaKeyMax (m : List (Nat × M)) : Nat :=
  m.foldl (fun acc p => max acc p.1) 0

structure DatabaseM (D M : Type) where
  index : ImmMap Nat (List SentenceId)
  sentences : ImmMap SentenceId Stc
  documents : ImmMap Nat D
  doc_meta : List M
  term_map : List (String × Nat)

/-- `DatabaseBuilder::build_in`: sort+dedup every posting list, build the
three MPH maps (each over its own hasher), materialize the dense metadata
array of length `max(doc_id)+1` (default-initialized, then overwritten from
the accumulated map), freeze the term map. -/
def build_in (bs : DatabaseBuilder D M) (hIdx : Nat → Option Nat)
    (hSent : SentenceId → Option Nat) (hDoc : Nat → Option Nat) (dm : M) :
    DatabaseM D M :=
  { index := buildImmMap hIdx (build_postings bs)
    sentences := buildImmMap hSent bs.sentence_map
    documents := buildImmMap hDoc bs.doc_storage
    doc_meta := bs.doc_metadata.foldl (fun a p => a.set p.1 p.2)
      (List.replicate (metaKeyMax bs.doc_metadata + 1) dm)
    term_map := bs.term_map }

def DatabaseM.get_doc {D M : Type} (db : DatabaseM D M) (doc_id : Nat) : Option D :=
  db.documents.get doc_id

/-! ## Persistence (`engine/src/lib.rs`, `Database::persist` / `Database::load`)

`persist` writes five headers (keys, serialized MPH bytes, position tables /
the metadata length) next to the four data files; `load` reads them back and
reassembles the maps.  The postcard serialization and `GOFunction`
write/read round-trips are external crates assumed faithful, so the headers
here carry the components directly, and the data files carry the slot-ordered
stores. -/

structure PersistedDb (D M : Type) where
  sentence_index_header : (Nat → Option Nat) × List (Option Nat)
  sentences_header : (SentenceId → Option Nat) × List (Option SentenceId)
  documents_header : (Nat → Option Nat) × List (Option Nat)
  doc_meta_header : Nat
  term_map_header : List (String × Nat)
  sentence_index_file : List (Option (List SentenceId))
  sentences_file : List (Option Stc)
  documents_file : List (Option D)
  doc_meta_file : List M

def DatabaseM.persist {D M : Type} (db : DatabaseM D M) : PersistedDb D M :=
  { sentence_index_header := (db.index.hasher, db.index.keys)
    sentences_header := (db.sentences.hasher, db.sentences.keys)
    documents_header := (db.documents.hasher, db.documents.keys)
    doc_meta_header := db.doc_meta.length
    term_map_header := db.term_map
    sentence_index_file := db.index.store
    sentences_file := db.sentences.store
    documents_file := db.documents.store
    doc_meta_file := db.doc_meta }

def DatabaseM.load {D M : Type} (p : PersistedDb D M) : DatabaseM D M :=
  { index := ⟨p.sentence_index_header.1, p.sentence_index_header.2, p.sentence_index_file⟩
    sentences := ⟨p.sentences_header.1, p.sentences_header.2, p.sentences_file⟩
    documents := ⟨p.documents_header.1, p.documents_header.2, p.documents_file⟩
    doc_meta := p.doc_meta_file
    term_map := p.term_map_header }

def c2demo_docs : List (DocumentData String Unit) :=
  [⟨1, [[(0, "a")]], (), "payload"⟩]

def c2demo_bs : DatabaseBuilder String Unit :=
  (build_all id c2demo_docs).getD (emptyBuilder String Unit)

/-! ## The query language parser (`engine/src/query/parser.rs`)

Token stream (the `logos` lexer yields these; whitespace is skipped) and the
`Expression` tree.  The PEG grammar is

    expression = and
    and  = and "AND" or  / or        (#[cache_left_rec])
    or   = or  "OR"  atom / atom     (#[cache_left_rec])
    atom = literal / "(" expression ")"
    literal = QuotedString / Ident+  (idents joined with spaces)

`peg`'s cached left recursion has seed-growing semantics: a left-recursive
rule parses the longest left-associative chain.  It is modelled by the
standard unrolling - parse one operand, then repeatedly extend while the
operator token follows and its right operand parses (falling back to the
shorter parse otherwise).  The entry point `expression(&tokens)` must
consume the whole input.  Fuel: every recursive step either consumes a token
or descends into a strictly shorter suffix, so `2·|tokens| + 4` always
suffices (the concrete claims instantiate it on closed token lists). -/

inductive QueryToken where
  | quotedString (s : String)
  | ident (s : String)
  | parenOpen
  | parenClose
  | andTok
  | orTok
deriving DecidableEq, Repr

inductive Expression where
  | literal (s : String)
  | and (l r : Expression)
  | or (l r : Expression)
deriving DecidableEq, Repr

/-- `Vec<String>::join(" ")`. -/
def joinSpace : List String → String
  | [] => ""
  | [w] => w
  | w :: ws => w ++ " " ++ joinSpace ws

def identRun : List QueryToken → List String × List QueryToken
  | .ident s :: rest =>
    let r := identRun rest
    (s :: r.1, r.2)
  | ts => ([], ts)

def parseLiteral (ts : List QueryToken) : Option (Expression × List QueryToken) :=
  match ts with
  | .quotedString s :: rest => some (.literal s, rest)
  | _ =>
    match identRun ts with
    | ([], _) => none
    | (ws, rest) => some (.literal (joinSpace ws), rest)

mutual

def parseAtom : Nat → List QueryToken → Option (Expression × List QueryToken)
  | 0, _ => none
  | fuel + 1, ts =>
    match parseLiteral ts with
    | some r => some r
    | none =>
      match ts with
      | .parenOpen :: rest =>
        match parseAnd fuel rest with
        | some (e, .parenClose :: rest2) => some (e, rest2)
        | _ => none
      | _ => none

def parseOr : Nat → List QueryToken → Option (Expression × List QueryToken)
  | 0, _ => none
  | fuel + 1, ts =>
    match parseAtom fuel ts with
    | none => none
    | some (e, rest) => some (orLoop fuel e rest)

def orLoop : Nat → Expression → List QueryToken → Expression × List QueryToken
  | 0, acc, ts => (acc, ts)
  | fuel + 1, acc, ts =>
    match ts with
    | .orTok :: rest =>
      match parseAtom fuel rest with
      | some (r, rest2) => orLoop fuel (.or acc r) rest2
      | none => (acc, ts)
    | _ => (acc, ts)

def parseAnd : Nat → List QueryToken → Option (Expression × List QueryToken)
  | 0, _ => none
  | fuel + 1, ts =>
    match parseOr fuel ts with
    | none => none
    | some (e, rest) => some (andLoop fuel e rest)

def andLoop : Nat → Expression → List QueryToken → Expression × List QueryToken
  | 0, acc, ts => (acc, ts)
  | fuel + 1, acc, ts =>
    match ts with
    | .andTok :: rest =>
      match parseOr fuel rest with
      | some (r, rest2) => andLoop fuel (.and acc r) rest2
      | none => (acc, ts)
    | _ => (acc, ts)

end

def query_grammar_expression (ts : List QueryToken) : Option Expression :=
  match parseAnd (2 * ts.length + 4) ts with
  | some (e, []) => some e
  | _ => none

/-! ## Lowering parsed expressions to query trees
    (`Expression::parse`, `engine/src/query/parser.rs` lines 76-158)

The lowering receives the frozen term map (here the tokenizer `tok`, i.e.
`terms.tokenize_phrase`), the document filter and the `optimize` flag.  A
literal becomes a phrase query over its tokenized terms.  `And` of two
literals under `optimize` becomes an `IntersectingPhraseQuery` over the two
token lists; any other `And` lowers both sides and wraps them in an
`IntersectingQuery` (the call site passes no document filter to
`IntersectingQuery::from_boxed`, so that node's own filter is the trivial
one - the children still carry `doc_filter`).  `Or` of two literals under
`optimize` becomes a `KeywordsQuery` when both sides tokenize to exactly
one term (`query_terms = vec![lhs_terms[0], rhs_terms[0]]`, rendered with
`headD` under the length-1 guard), else a `UnionQuery` of the two phrase
queries; any other `Or` lowers both sides into a `UnionQuery`. -/

def Expression.parse (tok : String → List Nat) (df : DocFilter) (optimize : Bool) :
    Expression → Qry
  | .literal v => .phrase (tok v) df
  | .and l r =>
    match optimize, l, r with
    | true, .literal lv, .literal rv => .intersectingPhrase [tok lv, tok rv] df
    | _, l, r => .intersecting [l.parse tok df optimize, r.parse tok df optimize] unitDF
  | .or l r =>
    match optimize, l, r with
    | true, .literal lv, .literal rv =>
      if (tok lv).length = 1 ∧ (tok rv).length = 1 then
        .keywords [(tok lv).headD 0, (tok rv).headD 0] df
      else
        .unionQ [.phrase (tok lv) df, .phrase (tok rv) df]
    | _, l, r => .unionQ [l.parse tok df optimize, r.parse tok df optimize]

/-- Every literal of the expression tokenizes to at least one term. -/
def litOK (tok : String → List Nat) : Expression → Bool
  | .literal s => !(tok s).isEmpty
  | .and l r => litOK tok l && litOK tok r
  | .or l r => litOK tok l && litOK tok r

/-- Denotational reading of an expression at a sentence id: a literal asks
that every one of its terms lists the id in its posting list (the find
phase intersects posting lists; word adjacency is only checked later by
`filter_map`), `And` is conjunction and `Or` is disjunction. -/
def sem (tok : String → List Nat) (db : Db) (v : SentenceId) : Expression → Prop
  | .literal s => ∀ t ∈ tok s, v ∈ db.index t
  | .and l r => sem tok db v l ∧ sem tok db v r
  | .or l r => sem tok db v l ∨ sem tok db v r

/-- Token form of the query string `"fox OR sand OR slow"` as the grammar
parses it (left-associative `Or` chain). -/
def c3ce : Expression := .or (.or (.literal "fox") (.literal "sand")) (.literal "slow")

theorem SentenceId.ltb_iff {a b : SentenceId} :
    a.ltb b = true ↔ a.doc < b.doc ∨ (a.doc = b.doc ∧ a.sentence < b.sentence) := by
  simp [SentenceId.ltb]

theorem SentenceId.leb_iff {a b : SentenceId} :
    a.leb b = true ↔ a.doc < b.doc ∨ (a.doc = b.doc ∧ a.sentence ≤ b.sentence) := by
  simp [SentenceId.leb]

theorem SentenceId.leb_refl (a : SentenceId) : a.leb a = true := by
  simp [SentenceId.leb_iff]

theorem SentenceId.ltb_irrefl (a : SentenceId) : a.ltb a = false := by
  by_cases h : a.ltb a = true
  · rw [SentenceId.ltb_iff] at h; omega
  · simpa using h

theorem SentenceId.leb_of_ltb {a b : SentenceId} (h : a.ltb b = true) : a.leb b = true := by
  rw [SentenceId.ltb_iff] at h
  rw [SentenceId.leb_iff]
  omega

theorem SentenceId.ltb_trans {a b c : SentenceId}
    (h₁ : a.ltb b = true) (h₂ : b.ltb c = true) : a.ltb c = true := by
  rw [SentenceId.ltb_iff] at h₁ h₂ ⊢; omega

theorem SentenceId.leb_trans {a b c : SentenceId}
    (h₁ : a.leb b = true) (h₂ : b.leb c = true) : a.leb c = true := by
  rw [SentenceId.leb_iff] at h₁ h₂ ⊢; omega

theorem SentenceId.ltb_of_ltb_of_leb {a b c : SentenceId}
    (h₁ : a.ltb b = true) (h₂ : b.leb c = true) : a.ltb c = true := by
  rw [SentenceId.ltb_iff] at h₁ ⊢; rw [SentenceId.leb_iff] at h₂; omega

theorem SentenceId.ltb_of_leb_of_ltb {a b c : SentenceId}
    (h₁ : a.leb b = true) (h₂ : b.ltb c = true) : a.ltb c = true := by
  rw [SentenceId.leb_iff] at h₁; rw [SentenceId.ltb_iff] at h₂ ⊢; omega

theorem SentenceId.leb_total (a b : SentenceId) : a.leb b = true ∨ b.leb a = true := by
  rw [SentenceId.leb_iff, SentenceId.leb_iff]; omega

theorem SentenceId.ltb_of_leb_of_ne {a b : SentenceId}
    (h₁ : a.leb b = true) (h₂ : a ≠ b) : a.ltb b = true := by
  rw [SentenceId.leb_iff] at h₁; rw [SentenceId.ltb_iff]
  have h₃ : ¬ (a.doc = b.doc ∧ a.sentence = b.sentence) := by
    intro hh
    exact h₂ (by cases a; cases b; simp_all)
  omega

theorem SentenceId.eq_of_not_ltb_of_not_ltb {a b : SentenceId}
    (h₁ : ¬ a.ltb b = true) (h₂ : ¬ b.ltb a = true) : a = b := by
  rw [SentenceId.ltb_iff] at h₁ h₂
  rcases a with ⟨d₁, s₁⟩; rcases b with ⟨d₂, s₂⟩
  simp only at h₁ h₂
  simp only [SentenceId.mk.injEq]
  omega

theorem SentenceId.leb_of_not_ltb {a b : SentenceId} (h : ¬ b.ltb a = true) :
    a.leb b = true := by
  rw [SentenceId.ltb_iff] at h; rw [SentenceId.leb_iff]; omega

theorem SortedLe.of_lt {l : List SentenceId} (h : SortedLt l) : SortedLe l :=
  List.Pairwise.imp (fun hab => SentenceId.leb_of_ltb hab) h

theorem SortedLe.sublist {l₁ l₂ : List SentenceId} (hs : l₁.Sublist l₂)
    (h : SortedLe l₂) : SortedLe l₁ :=
  List.Pairwise.sublist hs h

theorem scalar_merge_go_perm :
    ∀ (fuel : Nat) (a b : List SentenceId), a.length + b.length < fuel →
      (scalar_merge_go fuel a b).Perm (a ++ b) := by
  intro fuel
  induction fuel with
  | zero => intro a b h; omega
  | succ n ih =>
    intro a b h
    match a, b with
    | [], b => simp [scalar_merge_go]
    | x :: xs, [] => simp [scalar_merge_go]
    | x :: xs, y :: ys =>
      simp only [scalar_merge_go]
      by_cases hxy : x.ltb y = true
      · simp only [hxy, if_true]
        exact (ih xs (y :: ys) (by simp at h ⊢; omega)).cons x
      · simp only [hxy, if_false]
        have hp := (ih (x :: xs) ys (by simp at h ⊢; omega)).cons y
        exact hp.trans List.perm_middle.symm

theorem scalar_merge_go_sorted :
    ∀ (fuel : Nat) (a b : List SentenceId), a.length + b.length < fuel →
      SortedLe a → SortedLe b → SortedLe (scalar_merge_go fuel a b) := by
  intro fuel
  induction fuel with
  | zero => intro a b h; omega
  | succ n ih =>
    intro a b h ha hb
    match a, b with
    | [], b => simpa [scalar_merge_go] using hb
    | x :: xs, [] => simpa [scalar_merge_go] using ha
    | x :: xs, y :: ys =>
      simp only [scalar_merge_go]
      rcases List.pairwise_cons.mp ha with ⟨hxall, hxs⟩
      rcases List.pairwise_cons.mp hb with ⟨hyall, hys⟩
      by_cases hxy : x.ltb y = true
      · simp only [hxy, if_true]
        refine List.pairwise_cons.mpr ⟨?_, ih xs (y :: ys) (by simp at h ⊢; omega) hxs hb⟩
        intro z hz
        have hz2 := (scalar_merge_go_perm n xs (y :: ys) (by simp at h ⊢; omega)).mem_iff.mp hz
        rcases List.mem_append.mp hz2 with hz3 | hz3
        · exact hxall z hz3
        · rcases List.mem_cons.mp hz3 with rfl | hz4
          · exact SentenceId.leb_of_ltb hxy
          · exact SentenceId.leb_trans (SentenceId.leb_of_ltb hxy) (hyall z hz4)
      · simp only [hxy, if_false]
        refine List.pairwise_cons.mpr ⟨?_, ih (x :: xs) ys (by simp at h ⊢; omega) ha hys⟩
        intro z hz
        have hyx : y.leb x = true := SentenceId.leb_of_not_ltb hxy
        have hz2 := (scalar_merge_go_perm n (x :: xs) ys (by simp at h ⊢; omega)).mem_iff.mp hz
        rcases List.mem_append.mp hz2 with hz3 | hz3
        · rcases List.mem_cons.mp hz3 with rfl | hz4
          · exact hyx
          · exact SentenceId.leb_trans hyx (hxall z hz4)
        · exact hyall z hz3

theorem scalar_merge_perm (a b : List SentenceId) : (scalar_merge a b).Perm (a ++ b) :=
  scalar_merge_go_perm _ a b (by omega)

theorem scalar_merge_sorted {a b : List SentenceId} (ha : SortedLe a) (hb : SortedLe b) :
    SortedLe (scalar_merge a b) :=
  scalar_merge_go_sorted _ a b (by omega) ha hb

/-- Loop invariant for the binary-search loop: on a sorted slice, everything
strictly left of `left` is `< v` and everything at or right of `right` is
`> v`.  The result is then either a position holding `v`, or the pivot index
with everything before it `< v` and everything from it on `> v`. -/
theorem binary_search_go_spec (l : List SentenceId) (v : SentenceId) (hl : SortedLe l) :
    ∀ (fuel left right : Nat), right - left < fuel → left ≤ right → right ≤ l.length →
      (∀ i, i < left → i < l.length → (l.getD i SentenceId.zeroed).ltb v = true) →
      (∀ i, right ≤ i → i < l.length → v.ltb (l.getD i SentenceId.zeroed) = true) →
      (match binary_search_go l v fuel left right with
       | .found i => i < l.length ∧ l.getD i SentenceId.zeroed = v
       | .notFound i => i ≤ l.length ∧
           (∀ j, j < i → j < l.length → (l.getD j SentenceId.zeroed).ltb v = true) ∧
           (∀ j, i ≤ j → j < l.length → v.ltb (l.getD j SentenceId.zeroed) = true)) := by
  intro fuel
  induction fuel with
  | zero => intro left right h; omega
  | succ n ih =>
    intro left right hfuel hlr hrlen hleft hright
    by_cases hcond : left < right
    · simp only [binary_search_go, hcond, if_true]
      set mid := left + (right - left) / 2 with hmid
      have hmidlt : mid < right := by
        have : (right - left) / 2 < right - left := Nat.div_lt_self (by omega) (by omega)
        omega
      have hmidge : left ≤ mid := by omega
      have hmidlen : mid < l.length := by omega
      set x := l.getD mid SentenceId.zeroed with hx
      by_cases h₁ : x.ltb v = true
      · simp only [h₁, if_true]
        refine ih (mid + 1) right (by omega) (by omega) hrlen ?_ hright
        intro i hi hilen
        by_cases hile : i < left
        · exact hleft i hile hilen
        · -- left ≤ i ≤ mid: sortedness gives l[i] ≤ l[mid] < v
          have hile2 : i ≤ mid := by omega
          by_cases hieq : i = mid
          · subst hieq; exact h₁
          · have hlt : (l.getD i SentenceId.zeroed).leb x = true := by
              rw [List.getD_eq_getElem l _ hilen, hx, List.getD_eq_getElem l _ hmidlen]
              exact (List.pairwise_iff_getElem.mp hl) i mid hilen hmidlen (by omega)
            exact SentenceId.ltb_of_leb_of_ltb hlt h₁
      · simp only [h₁, if_false]
        by_cases h₂ : v.ltb x = true
        · simp only [h₂, if_true]
          refine ih left mid (by omega) (by omega) (by omega) hleft ?_
          intro i hi hilen
          have hle : x.leb (l.getD i SentenceId.zeroed) = true := by
            by_cases hieq : i = mid
            · subst hieq; exact SentenceId.leb_refl _
            · rw [List.getD_eq_getElem l _ hilen, hx, List.getD_eq_getElem l _ hmidlen]
              exact (List.pairwise_iff_getElem.mp hl) mid i hmidlen hilen (by omega)
          exact SentenceId.ltb_of_ltb_of_leb h₂ hle
        · simp only [h₂, if_false]
          exact ⟨hmidlen, (SentenceId.eq_of_not_ltb_of_not_ltb h₂ h₁).symm⟩
    · simp only [binary_search_go, hcond, if_false]
      have hlr2 : left = right := by omega
      subst hlr2
      exact ⟨by omega, fun j hj hjlen => hleft j hj hjlen, fun j hj hjlen => hright j hj hjlen⟩

theorem binary_search_spec (l : List SentenceId) (v : SentenceId) (hl : SortedLe l) :
    match binary_search l v with
    | .found i => i < l.length ∧ l.getD i SentenceId.zeroed = v
    | .notFound i => i ≤ l.length ∧
        (∀ j, j < i → j < l.length → (l.getD j SentenceId.zeroed).ltb v = true) ∧
        (∀ j, i ≤ j → j < l.length → v.ltb (l.getD j SentenceId.zeroed) = true) :=
  binary_search_go_spec l v hl (l.length + 1) 0 l.length (by omega) (by omega)
    (by omega) (by omega) (by omega)

/-- On a sorted slice, `binary_search(v).is_ok()` is exactly membership. -/
theorem binary_search_isOk_iff_mem {l : List SentenceId} {v : SentenceId}
    (hl : SortedLe l) : (binary_search l v).isOk = true ↔ v ∈ l := by
  have hspec := binary_search_spec l v hl
  cases hres : binary_search l v with
  | found i =>
    rw [hres] at hspec
    simp only [BsResult.isOk, true_iff]
    rcases hspec with ⟨hlen, heq⟩
    rw [List.getD_eq_getElem l _ hlen] at heq
    exact heq ▸ List.getElem_mem hlen
  | notFound i =>
    rw [hres] at hspec
    simp only [BsResult.isOk, Bool.false_eq_true, false_iff]
    rcases hspec with ⟨hlen, hlt, hgt⟩
    intro hmem
    rcases List.getElem_of_mem hmem with ⟨j, hj, hje⟩
    by_cases hji : j < i
    · have := hlt j hji hj
      rw [List.getD_eq_getElem l _ hj, hje] at this
      rw [SentenceId.ltb_iff] at this; omega
    · have := hgt j (by omega) hj
      rw [List.getD_eq_getElem l _ hj, hje] at this
      rw [SentenceId.ltb_iff] at this; omega

/-- Bounds of the collapsed split index used by `par_merge`: every element
strictly before the index is `≤ v`, every element from the index on is `≥ v`. -/
theorem binary_search_index_spec {l : List SentenceId} {v : SentenceId}
    (hl : SortedLe l) :
    (binary_search l v).index ≤ l.length ∧
      (∀ j, j < (binary_search l v).index → j < l.length →
        (l.getD j SentenceId.zeroed).leb v = true) ∧
      (∀ j, (binary_search l v).index ≤ j → j < l.length →
        v.leb (l.getD j SentenceId.zeroed) = true) := by
  have hspec := binary_search_spec l v hl
  cases hres : binary_search l v with
  | found i =>
    rw [hres] at hspec
    rcases hspec with ⟨hlen, heq⟩
    refine ⟨by simpa [BsResult.index] using Nat.le_of_lt hlen, ?_, ?_⟩
    · intro j hj hjlen
      simp only [BsResult.index] at hj
      rw [List.getD_eq_getElem l _ hjlen]
      rw [List.getD_eq_getElem l _ hlen] at heq
      rw [← heq]
      exact (List.pairwise_iff_getElem.mp hl) j i hjlen hlen hj
    · intro j hj hjlen
      simp only [BsResult.index] at hj
      rw [List.getD_eq_getElem l _ hjlen]
      rw [List.getD_eq_getElem l _ hlen] at heq
      by_cases hji : j = i
      · subst hji; rw [heq]; exact SentenceId.leb_refl _
      · rw [← heq]
        exact (List.pairwise_iff_getElem.mp hl) i j hlen hjlen (by omega)
  | notFound i =>
    rw [hres] at hspec
    rcases hspec with ⟨hlen, hlt, hgt⟩
    refine ⟨by simpa [BsResult.index] using hlen, ?_, ?_⟩
    · intro j hj hjlen
      simp only [BsResult.index] at hj
      exact SentenceId.leb_of_ltb (hlt j hj hjlen)
    · intro j hj hjlen
      simp only [BsResult.index] at hj
      exact SentenceId.leb_of_ltb (hgt j hj hjlen)

theorem par_merge_body_correct
    (rec : List SentenceId → List SentenceId → List SentenceId)
    (a b : List SentenceId) (hba : b.length ≤ a.length)
    (ha : SortedLe a) (hb : SortedLe b)
    (hrec : ∀ x y, x.length + y.length < a.length + b.length → SortedLe x → SortedLe y →
      (rec x y).Perm (x ++ y) ∧ SortedLe (rec x y)) :
    (par_merge_body rec a b).Perm (a ++ b) ∧ SortedLe (par_merge_body rec a b) := by
  by_cases hae : a.isEmpty
  · have ha0 : a = [] := List.isEmpty_iff.mp hae
    have hb0 : b = [] := by
      rw [ha0] at hba
      simp only [List.length_nil, Nat.le_zero] at hba
      exact List.length_eq_zero.mp hba
    subst ha0; subst hb0
    exact ⟨by simp [par_merge_body], by simp [par_merge_body, SortedLe]⟩
  · by_cases hthr : a.length < 32768
    · simp only [par_merge_body, hae, Bool.false_eq_true, if_false, hthr, if_true]
      exact ⟨scalar_merge_perm a b, scalar_merge_sorted ha hb⟩
    · simp only [par_merge_body, hae, Bool.false_eq_true, if_false, hthr, if_true]
      have hane : a ≠ [] := fun h => hae (by simp [h])
      have halen : 0 < a.length := List.length_pos.mpr hane
      set pivot := a.length / 2 with hpivot
      have hpivlt : pivot < a.length := Nat.div_lt_self halen (by omega)
      set m := a.getD pivot SentenceId.zeroed with hm
      obtain ⟨hsle, hstake, hsdrop⟩ := binary_search_index_spec (l := b) (v := m) hb
      set s := (binary_search b m).index with hs
      -- decomposition of `a` around the pivot and of `b` at the split point
      have hadecomp : a = a.take pivot ++ m :: a.drop (pivot + 1) := by
        rw [hm, List.getD_eq_getElem a _ hpivlt]
        rw [← List.drop_eq_getElem_cons hpivlt]
        exact (List.take_append_drop pivot a).symm
      have hbdecomp : b = b.take s ++ b.drop s := (List.take_append_drop s b).symm
      have hta : SortedLe (a.take pivot) := SortedLe.sublist (List.take_sublist _ _) ha
      have hda : SortedLe (a.drop (pivot + 1)) := SortedLe.sublist (List.drop_sublist _ _) ha
      have htb : SortedLe (b.take s) := SortedLe.sublist (List.take_sublist _ _) hb
      have hdb : SortedLe (b.drop s) := SortedLe.sublist (List.drop_sublist _ _) hb
      have hlen1 : (a.take pivot).length + (b.take s).length < a.length + b.length := by
        rw [List.length_take, List.length_take]; omega
      have hlen2 : (a.drop (pivot + 1)).length + (b.drop s).length < a.length + b.length := by
        rw [List.length_drop, List.length_drop]; omega
      obtain ⟨hLperm, hLsorted⟩ := hrec _ _ hlen1 hta htb
      obtain ⟨hRperm, hRsorted⟩ := hrec _ _ hlen2 hda hdb
      -- elements left of the pivot are ≤ m, elements right of it are ≥ m
      have hamemle : ∀ z ∈ a.take pivot, z.leb m = true := by
        intro z hz
        rcases List.mem_iff_getElem.mp hz with ⟨i, hi, hzi⟩
        have hi2 : i < pivot := by
          have := hi; rw [List.length_take] at this; omega
        have hia : i < a.length := by omega
        rw [← hzi, List.getElem_take]
        rw [hm, List.getD_eq_getElem a _ hpivlt]
        exact (List.pairwise_iff_getElem.mp ha) i pivot hia hpivlt hi2
      have hamemge : ∀ z ∈ a.drop (pivot + 1), m.leb z = true := by
        intro z hz
        rcases List.mem_iff_getElem.mp hz with ⟨i, hi, hzi⟩
        have hia : pivot + 1 + i < a.length := by
          have := hi; rw [List.length_drop] at this; omega
        rw [← hzi, List.getElem_drop]
        rw [hm, List.getD_eq_getElem a _ hpivlt]
        exact (List.pairwise_iff_getElem.mp ha) pivot (pivot + 1 + i) hpivlt hia (by omega)
      have hbmemle : ∀ z ∈ b.take s, z.leb m = true := by
        intro z hz
        rcases List.mem_iff_getElem.mp hz with ⟨i, hi, hzi⟩
        have hi2 : i < s := by
          have := hi; rw [List.length_take] at this; omega
        have hib : i < b.length := by
          have := hi; rw [List.length_take] at this; omega
        rw [← hzi, List.getElem_take]
        have := hstake i hi2 hib
        rwa [List.getD_eq_getElem b _ hib] at this
      have hbmemge : ∀ z ∈ b.drop s, m.leb z = true := by
        intro z hz
        rcases List.mem_iff_getElem.mp hz with ⟨i, hi, hzi⟩
        have hib : s + i < b.length := by
          have := hi; rw [List.length_drop] at this; omega
        rw [← hzi, List.getElem_drop]
        have := hsdrop (s + i) (by omega) hib
        rwa [List.getD_eq_getElem b _ hib] at this
      constructor
      · -- multiset equality
        have h1 : (rec (a.take pivot) (b.take s) ++
            m :: rec (a.drop (pivot + 1)) (b.drop s)).Perm
            ((a.take pivot ++ b.take s) ++ m :: (a.drop (pivot + 1) ++ b.drop s)) :=
          hLperm.append (hRperm.cons m)
        refine h1.trans ?_
        conv_rhs => rw [hadecomp, hbdecomp]
        -- both sides list the same five blocks
        rw [List.append_assoc]
        have s3 : (b.take s ++ (a.drop (pivot + 1) ++ b.drop s)).Perm
            (a.drop (pivot + 1) ++ (b.take s ++ b.drop s)) := by
          rw [← List.append_assoc, ← List.append_assoc]
          exact List.perm_append_comm.append_right _
        have s4 : (b.take s ++ m :: (a.drop (pivot + 1) ++ b.drop s)).Perm
            (m :: (a.drop (pivot + 1) ++ (b.take s ++ b.drop s))) :=
          List.perm_middle.trans (s3.cons m)
        refine (s4.append_left (a.take pivot)).trans ?_
        have s6 : a.take pivot ++ m :: (a.drop (pivot + 1) ++ (b.take s ++ b.drop s))
            = (a.take pivot ++ m :: a.drop (pivot + 1)) ++ (b.take s ++ b.drop s) := by
          simp [List.append_assoc]
        rw [s6]
      · -- sortedness of `L ++ m :: R`
        simp only [SortedLe]
        rw [List.pairwise_append]
        refine ⟨hLsorted, ?_, ?_⟩
        · rw [List.pairwise_cons]
          refine ⟨?_, hRsorted⟩
          intro z hz
          rcases List.mem_append.mp (hRperm.mem_iff.mp hz) with hz2 | hz2
          · exact hamemge z hz2
          · exact hbmemge z hz2
        · intro x hx y hy
          have hxm : x.leb m = true := by
            rcases List.mem_append.mp (hLperm.mem_iff.mp hx) with hx2 | hx2
            · exact hamemle x hx2
            · exact hbmemle x hx2
          rcases List.mem_cons.mp hy with rfl | hy2
          · exact hxm
          · have hmy : m.leb y = true := by
              rcases List.mem_append.mp (hRperm.mem_iff.mp hy2) with hy3 | hy3
              · exact hamemge y hy3
              · exact hbmemge y hy3
            exact SentenceId.leb_trans hxm hmy

theorem par_merge_go_correct :
    ∀ (fuel : Nat) (a b : List SentenceId), a.length + b.length < fuel →
      SortedLe a → SortedLe b →
      (par_merge_go fuel a b).Perm (a ++ b) ∧ SortedLe (par_merge_go fuel a b) := by
  intro fuel
  induction fuel with
  | zero => intro a b h; omega
  | succ n ih =>
    intro a b h ha hb
    simp only [par_merge_go]
    by_cases hswap : b.length ≤ a.length
    · simp only [hswap, if_true]
      exact par_merge_body_correct _ a b hswap ha hb
        (fun x y hxy hx hy => ih x y (by omega) hx hy)
    · simp only [hswap, if_false]
      obtain ⟨hperm, hsorted⟩ := par_merge_body_correct (par_merge_go n) b a (by omega) hb ha
        (fun x y hxy hx hy => ih x y (by omega) hx hy)
      exact ⟨hperm.trans List.perm_append_comm, hsorted⟩

/-- C1: for ascending-sorted inputs, `SentenceIdList::merge_slices` (par_merge
with scalar_merge as the below-threshold fallback) fills an output of length
`|a| + |b|` that is sorted ascending and is, as a multiset, the multiset union
of `a` and `b`; no duplicates are removed by the merge itself. -/
theorem C1_merge_slices_sorted_perm (a b : List SentenceId)
    (ha : SortedLe a) (hb : SortedLe b) :
    (merge_slices a b).length = a.length + b.length ∧
      SortedLe (merge_slices a b) ∧ (merge_slices a b).Perm (a ++ b) := by
  obtain ⟨hperm, hsorted⟩ := par_merge_go_correct (a.length + b.length + 1) a b (by omega) ha hb
  exact ⟨by simpa using hperm.length_eq, hsorted, hperm⟩

/-- Witness for C1, on the spec example `merge([1,1,2],[1,3]) = [1,1,1,2,3]`
(read as doc ids with sentence index 0): the hypotheses hold and the merge
keeps all five entries, removing no duplicates. -/
theorem C1_merge_slices_witness :
    SortedLe [⟨1, 0⟩, ⟨1, 0⟩, ⟨2, 0⟩] ∧ SortedLe [⟨1, 0⟩, ⟨3, 0⟩] ∧
      merge_slices [⟨1, 0⟩, ⟨1, 0⟩, ⟨2, 0⟩] [⟨1, 0⟩, ⟨3, 0⟩]
        = [⟨1, 0⟩, ⟨1, 0⟩, ⟨1, 0⟩, ⟨2, 0⟩, ⟨3, 0⟩] ∧
      ((merge_slices [⟨1, 0⟩, ⟨1, 0⟩, ⟨2, 0⟩] [⟨1, 0⟩, ⟨3, 0⟩]).length = 3 + 2 ∧
        SortedLe (merge_slices [⟨1, 0⟩, ⟨1, 0⟩, ⟨2, 0⟩] [⟨1, 0⟩, ⟨3, 0⟩]) ∧
        (merge_slices [⟨1, 0⟩, ⟨1, 0⟩, ⟨2, 0⟩] [⟨1, 0⟩, ⟨3, 0⟩]).Perm
          ([⟨1, 0⟩, ⟨1, 0⟩, ⟨2, 0⟩] ++ [⟨1, 0⟩, ⟨3, 0⟩])) :=
  ⟨by decide, by decide, by decide,
    C1_merge_slices_sorted_perm [⟨1, 0⟩, ⟨1, 0⟩, ⟨2, 0⟩] [⟨1, 0⟩, ⟨3, 0⟩]
      (by decide) (by decide)⟩

theorem collapse_go_spec :
    ∀ (xs : List CopyableRange) (current : CopyableRange),
      current.start < current.stop → (∀ r ∈ xs, r.start < r.stop) →
      (∀ z ∈ collapse_go current xs, z.start < z.stop) ∧
        List.Chain' (fun a b => a.stop ≤ b.start) (collapse_go current xs) ∧
        ((collapse_go current xs).headD ⟨0, 0⟩).start = current.start ∧
        collapse_go current xs ≠ [] := by
  intro xs
  induction xs with
  | nil =>
    intro current hcur _
    refine ⟨?_, ?_, ?_, ?_⟩ <;> simp [collapse_go]
    exact hcur
  | cons r rs ih =>
    intro current hcur hall
    by_cases hover : r.start < current.stop
    · simp only [collapse_go, hover, if_true]
      have hmerged : (⟨current.start, max current.stop r.stop⟩ : CopyableRange).start <
          (⟨current.start, max current.stop r.stop⟩ : CopyableRange).stop := by
        simp only
        omega
      obtain ⟨h1, h2, h3, h4⟩ := ih ⟨current.start, max current.stop r.stop⟩ hmerged
        (fun z hz => hall z (List.mem_cons_of_mem r hz))
      exact ⟨h1, h2, h3, h4⟩
    · simp only [collapse_go, hover, if_false]
      have hrne : r.start < r.stop := hall r (List.mem_cons_self r rs)
      obtain ⟨h1, h2, h3, h4⟩ := ih r hrne (fun z hz => hall z (List.mem_cons_of_mem r hz))
      obtain ⟨hd, tl, hht⟩ : ∃ hd tl, collapse_go r rs = hd :: tl := by
        cases hcg : collapse_go r rs with
        | nil => exact absurd hcg h4
        | cons hd tl => exact ⟨hd, tl, rfl⟩
      refine ⟨?_, ?_, ?_, ?_⟩
      · intro z hz
        rcases List.mem_cons.mp hz with rfl | hz2
        · exact hcur
        · exact h1 z hz2
      · rw [hht]
        rw [hht] at h2
        refine List.chain'_cons.mpr ⟨?_, h2⟩
        have : hd.start = r.start := by rw [hht] at h3; simpa using h3
        omega
      · simp
      · simp

theorem collapse_go_fixed :
    ∀ (rs : List CopyableRange) (current : CopyableRange),
      List.Chain' (fun a b => a.stop ≤ b.start) (current :: rs) →
      collapse_go current rs = current :: rs := by
  intro rs
  induction rs with
  | nil => intro current _; rfl
  | cons r rs ih =>
    intro current hchain
    rw [List.chain'_cons] at hchain
    have hno : ¬ r.start < current.stop := by omega
    simp only [collapse_go, hno, if_false]
    rw [ih r hchain.2]

theorem collapse_eq_self_of_gap {l : List CopyableRange}
    (hne : ∀ r ∈ l, r.start < r.stop)
    (hchain : List.Chain' (fun a b => a.stop ≤ b.start) l) :
    collapse_overlapped_ranges l = l := by
  cases l with
  | nil => rfl
  | cons r rs =>
    have hrne : r.start < r.stop := hne r (List.mem_cons_self r rs)
    simp only [collapse_overlapped_ranges, collapse_go, hrne, if_true]
    have hmax : (⟨r.start, max r.stop r.stop⟩ : CopyableRange) = r := by
      cases r; simp
    rw [hmax]
    exact collapse_go_fixed rs r hchain

/-- C7 (amended): `collapse_overlapped_ranges` is idempotent on lists of
highlight ranges, sorted by start, in which every range is nonempty
(`start < end`); with an empty range the self-comparison of the seed against
slot 0 duplicates it, so idempotence fails (see the counterexample). -/
theorem C7_collapse_idempotent_amended (xs : List CopyableRange)
    (hsorted : sortedByStart xs) (hne : ∀ r ∈ xs, r.start < r.stop) :
    collapse_overlapped_ranges (collapse_overlapped_ranges xs)
      = collapse_overlapped_ranges xs := by
  cases xs with
  | nil => rfl
  | cons r rest =>
    have hrne : r.start < r.stop := hne r (List.mem_cons_self r rest)
    have hspec := collapse_go_spec (r :: rest) r hrne hne
    obtain ⟨h1, h2, _, _⟩ := hspec
    have : collapse_overlapped_ranges (r :: rest) = collapse_go r (r :: rest) := rfl
    rw [this]
    exact collapse_eq_self_of_gap h1 h2

/-- Witness for C7 (amended), on the spec scenario 6 input
`[{0,5},{3,7},{10,12}]`: the hypotheses hold, collapsing gives
`[{0,7},{10,12}]`, and collapsing again leaves it unchanged. -/
theorem C7_collapse_idempotent_witness :
    sortedByStart [⟨0, 5⟩, ⟨3, 7⟩, ⟨10, 12⟩] ∧
      (∀ r ∈ ([⟨0, 5⟩, ⟨3, 7⟩, ⟨10, 12⟩] : List CopyableRange), r.start < r.stop) ∧
      collapse_overlapped_ranges [⟨0, 5⟩, ⟨3, 7⟩, ⟨10, 12⟩] = [⟨0, 7⟩, ⟨10, 12⟩] ∧
      collapse_overlapped_ranges (collapse_overlapped_ranges [⟨0, 5⟩, ⟨3, 7⟩, ⟨10, 12⟩])
        = collapse_overlapped_ranges [⟨0, 5⟩, ⟨3, 7⟩, ⟨10, 12⟩] :=
  ⟨by decide, by decide, by decide,
    C7_collapse_idempotent_amended [⟨0, 5⟩, ⟨3, 7⟩, ⟨10, 12⟩] (by decide) (by decide)⟩

/-- C7 counterexample: on the singleton list holding the empty range `{5,5}`
(sorted by start), collapsing once yields `[{5,5},{5,5}]` - the seed is
compared against itself at slot 0, does not merge because the range is empty,
and is pushed twice - and collapsing twice yields a three-element list, so
`collapse (collapse xs) ≠ collapse xs`. -/
theorem C7_collapse_idempotent_counterexample :
    sortedByStart [⟨5, 5⟩] ∧
      collapse_overlapped_ranges [⟨5, 5⟩] = [⟨5, 5⟩, ⟨5, 5⟩] ∧
      collapse_overlapped_ranges (collapse_overlapped_ranges [⟨5, 5⟩])
        ≠ collapse_overlapped_ranges [⟨5, 5⟩] := by
  refine ⟨by decide, by decide, by decide⟩

/-! ## Membership and ordering lemmas for the posting-list operations -/

instance : IsTotal SentenceId (fun a b => a.leb b = true) :=
  ⟨SentenceId.leb_total⟩

instance : IsTrans SentenceId (fun a b => a.leb b = true) :=
  ⟨fun _ _ _ => SentenceId.leb_trans⟩

instance : IsTotal (List SentenceId) (fun a b => a.length ≤ b.length) :=
  ⟨fun a b => Nat.le_total a.length b.length⟩

instance : IsTrans (List SentenceId) (fun a b => a.length ≤ b.length) :=
  ⟨fun _ _ _ => Nat.le_trans⟩

theorem sortIds_perm (l : List SentenceId) : (sortIds l).Perm l :=
  List.perm_insertionSort _ l

theorem sortIds_sorted (l : List SentenceId) : SortedLe (sortIds l) :=
  List.sorted_insertionSort _ l

theorem mem_sortIds {l : List SentenceId} {v : SentenceId} : v ∈ sortIds l ↔ v ∈ l :=
  (sortIds_perm l).mem_iff

theorem sortByLen_perm (sets : List (List SentenceId)) : (sortByLen sets).Perm sets :=
  List.perm_insertionSort _ sets

theorem zeroed_not_isValid : SentenceId.zeroed.isValid = false := by decide

theorem mem_retain {keep : SentenceId → Bool} {l : List SentenceId} {v : SentenceId}
    (hv : v.isValid = true) :
    v ∈ retain keep l ↔ v ∈ l ∧ keep v = true := by
  constructor
  · intro hmem
    rcases List.mem_map.mp hmem with ⟨slot, hslot, heq⟩
    by_cases hcond : slot.isValid && !keep slot
    · rw [if_pos hcond] at heq
      rw [← heq] at hv
      rw [zeroed_not_isValid] at hv
      cases hv
    · rw [if_neg hcond] at heq
      subst heq
      simp only [Bool.and_eq_true, Bool.not_eq_true'] at hcond
      refine ⟨hslot, ?_⟩
      rcases Bool.eq_false_or_eq_true (keep slot) with hk | hk
      · exact hk
      · exact absurd ⟨hv, hk⟩ hcond
  · rintro ⟨hmem, hkeep⟩
    refine List.mem_map.mpr ⟨v, hmem, ?_⟩
    simp [hkeep]

theorem retain_filter_isValid (keep : SentenceId → Bool) (l : List SentenceId) :
    (retain keep l).filter (fun s => s.isValid)
      = l.filter (fun s => s.isValid && keep s) := by
  induction l with
  | nil => rfl
  | cons slot rest ih =>
    by_cases hval : slot.isValid = true <;> by_cases hkeep : keep slot = true <;>
      simp [retain, List.filter_cons, hval, hkeep, zeroed_not_isValid,
        ← ih, retain]

theorem dedupAdj_cons_eq {x y : SentenceId} {rest : List SentenceId} (h : x = y) :
    dedupAdj (x :: y :: rest) = dedupAdj (y :: rest) := by
  simp [dedupAdj, h]

theorem dedupAdj_cons_ne {x y : SentenceId} {rest : List SentenceId} (h : x ≠ y) :
    dedupAdj (x :: y :: rest) = x :: dedupAdj (y :: rest) := by
  simp [dedupAdj, h]

theorem dedupAdj_sublist : ∀ (l : List SentenceId), (dedupAdj l).Sublist l := by
  intro l
  match l with
  | [] => exact List.Sublist.refl _
  | [x] => exact List.Sublist.refl _
  | x :: y :: rest =>
    by_cases hxy : x = y
    · rw [dedupAdj_cons_eq hxy]
      exact (dedupAdj_sublist (y :: rest)).cons x
    · rw [dedupAdj_cons_ne hxy]
      exact (dedupAdj_sublist (y :: rest)).cons₂ x

theorem mem_dedupAdj : ∀ {l : List SentenceId} {v : SentenceId}, v ∈ dedupAdj l ↔ v ∈ l := by
  intro l
  match l with
  | [] => simp [dedupAdj]
  | [x] => simp [dedupAdj]
  | x :: y :: rest =>
    intro v
    by_cases hxy : x = y
    · rw [dedupAdj_cons_eq hxy]
      rw [mem_dedupAdj (l := y :: rest)]
      subst hxy
      simp [List.mem_cons]
    · rw [dedupAdj_cons_ne hxy, List.mem_cons]
      rw [mem_dedupAdj (l := y :: rest)]
      simp [List.mem_cons]

theorem dedupAdj_sorted {l : List SentenceId} (h : SortedLe l) : SortedLe (dedupAdj l) :=
  SortedLe.sublist (dedupAdj_sublist l) h

/-- Adjacent dedup of a (non-strictly) sorted list is strictly ascending. -/
theorem dedupAdj_sortedLt : ∀ {l : List SentenceId}, SortedLe l → SortedLt (dedupAdj l) := by
  intro l
  match l with
  | [] => intro _; exact List.Pairwise.nil
  | [x] => intro _; exact List.pairwise_singleton _ x
  | x :: y :: rest =>
    intro h
    rcases List.pairwise_cons.mp h with ⟨hxall, hrest⟩
    by_cases hxy : x = y
    · rw [dedupAdj_cons_eq hxy]
      exact dedupAdj_sortedLt hrest
    · rw [dedupAdj_cons_ne hxy]
      refine List.pairwise_cons.mpr ⟨?_, dedupAdj_sortedLt hrest⟩
      intro z hz
      have hzmem : z ∈ y :: rest := (dedupAdj_sublist (y :: rest)).mem hz
      have hxy2 : x.ltb y = true :=
        SentenceId.ltb_of_leb_of_ne (hxall y (List.mem_cons_self y rest)) hxy
      rcases List.mem_cons.mp hzmem with rfl | hz2
      · exact hxy2
      · have hyz : y.leb z = true := (List.pairwise_cons.mp hrest).1 z hz2
        exact SentenceId.ltb_of_ltb_of_leb hxy2 hyz

theorem bsearchContains_iff_mem {l : List SentenceId} {v : SentenceId} (hl : SortedLe l) :
    bsearchContains l v = true ↔ v ∈ l :=
  binary_search_isOk_iff_mem hl

theorem bsearchContains_sortIds_iff_mem {l : List SentenceId} {v : SentenceId} :
    bsearchContains (sortIds l) v = true ↔ v ∈ l := by
  rw [bsearchContains_iff_mem (sortIds_sorted l), mem_sortIds]

/-- Membership in a chain of `retain`s: a valid id survives iff it is in the
seed and passes the predicate of every subsequent set. -/
theorem mem_foldl_retain (p : List SentenceId → SentenceId → Bool) :
    ∀ (sets : List (List SentenceId)) (init : List SentenceId) {v : SentenceId},
      v.isValid = true →
      (v ∈ sets.foldl (fun acc s => retain (p s) acc) init ↔
        v ∈ init ∧ ∀ s ∈ sets, p s v = true) := by
  intro sets
  induction sets with
  | nil => intro init v hv; simp
  | cons s rest ih =>
    intro init v hv
    simp only [List.foldl_cons]
    rw [ih _ hv, mem_retain hv]
    constructor
    · rintro ⟨⟨hmem, hp⟩, hall⟩
      refine ⟨hmem, ?_⟩
      intro s2 hs2
      rcases List.mem_cons.mp hs2 with rfl | hs3
      · exact hp
      · exact hall s2 hs3
    · rintro ⟨hmem, hall⟩
      exact ⟨⟨hmem, hall s (List.mem_cons_self s rest)⟩,
        fun s2 hs2 => hall s2 (List.mem_cons_of_mem s hs2)⟩

/-- Membership in the shared phrase/intersecting-phrase retain loop. -/
theorem mem_phrase_filter_loop {df : DocFilter} {seed : List SentenceId}
    {rest : List (List SentenceId)} {v : SentenceId} (hv : v.isValid = true)
    (hsorted : ∀ s ∈ rest, SortedLe s) :
    v ∈ phrase_filter_loop df seed rest ↔
      v ∈ seed ∧ (∀ s ∈ rest, v ∈ s) ∧
        (df.needed = true → df.filterDoc v.doc = true) := by
  unfold phrase_filter_loop
  by_cases hneed : df.needed = true
  · rw [if_pos hneed]
    by_cases hrest : rest.isEmpty = true
    · have hre : rest = [] := List.isEmpty_iff.mp hrest
      subst hre
      rw [if_pos hrest, mem_retain hv]
      simp only [List.not_mem_nil, false_implies, implies_true, true_and]
      constructor
      · rintro ⟨hmem, hf⟩; exact ⟨hmem, fun _ => hf⟩
      · rintro ⟨hmem, hf⟩; exact ⟨hmem, hf hneed⟩
    · rw [if_neg hrest]
      rw [mem_foldl_retain _ rest seed hv]
      have hrne : rest ≠ [] := fun h => hrest (by simp [h])
      obtain ⟨s0, rest0, rfl⟩ := List.exists_cons_of_ne_nil hrne
      constructor
      · rintro ⟨hmem, hall⟩
        have h0 := hall s0 (List.mem_cons_self s0 rest0)
        simp only [Bool.and_eq_true] at h0
        refine ⟨hmem, ?_, fun _ => h0.1⟩
        intro s hs
        have := hall s hs
        simp only [Bool.and_eq_true] at this
        exact (bsearchContains_iff_mem (hsorted s hs)).mp this.2
      · rintro ⟨hmem, hall, hfilter⟩
        refine ⟨hmem, ?_⟩
        intro s hs
        simp only [Bool.and_eq_true]
        exact ⟨hfilter hneed, (bsearchContains_iff_mem (hsorted s hs)).mpr (hall s hs)⟩
  · rw [if_neg hneed]
    have hneedf : df.needed = false := by
      revert hneed; cases df.needed <;> simp
    rw [mem_foldl_retain _ rest seed hv]
    constructor
    · rintro ⟨hmem, hall⟩
      refine ⟨hmem, ?_, fun hcontra => absurd hcontra (by simp [hneedf])⟩
      intro s hs
      exact (bsearchContains_iff_mem (hsorted s hs)).mp (hall s hs)
    · rintro ⟨hmem, hall, _⟩
      exact ⟨hmem, fun s hs => (bsearchContains_iff_mem (hsorted s hs)).mpr (hall s hs)⟩

theorem WfDb.sortedLe {db : Db} (h : WfDb db) (t : Nat) : SortedLe (db.index t) :=
  SortedLe.of_lt (h t).1

/-- The trailing `if DF::needed()` retain of `KeywordsQuery`. -/
theorem mem_df_retain {df : DocFilter} {ids : List SentenceId} {v : SentenceId}
    (hv : v.isValid = true) :
    v ∈ (if df.needed then retain (fun id => df.filterDoc id.doc) ids else ids) ↔
      v ∈ ids ∧ (df.needed = true → df.filterDoc v.doc = true) := by
  by_cases hneed : df.needed = true
  · rw [if_pos hneed, mem_retain hv]
    exact ⟨fun ⟨h1, h2⟩ => ⟨h1, fun _ => h2⟩, fun ⟨h1, h2⟩ => ⟨h1, h2 hneed⟩⟩
  · rw [if_neg hneed]
    exact ⟨fun h1 => ⟨h1, fun hc => absurd hc hneed⟩, fun ⟨h1, _⟩ => h1⟩

/-- Membership after seeding from the shortest posting list and retaining by
the others: exactly the ids present in every collected list (with the filter
condition when one is needed). -/
theorem mem_seed_loop {df : DocFilter} {term_sets : List (List SentenceId)}
    {v : SentenceId} (hv : v.isValid = true) (hts : term_sets ≠ [])
    (hsorted : ∀ s ∈ term_sets, SortedLe s) :
    v ∈ phrase_filter_loop df ((sortByLen term_sets).headD []) (sortByLen term_sets).tail ↔
      (∀ s ∈ term_sets, v ∈ s) ∧ (df.needed = true → df.filterDoc v.doc = true) := by
  have hperm := sortByLen_perm term_sets
  have hne : sortByLen term_sets ≠ [] := by
    intro h
    exact hts (List.eq_nil_of_length_eq_zero (by rw [← hperm.length_eq, h]; rfl))
  obtain ⟨s0, rest, heq⟩ := List.exists_cons_of_ne_nil hne
  have hmemiff : ∀ s : List SentenceId, s ∈ s0 :: rest ↔ s ∈ term_sets := by
    intro s; rw [← heq]; exact hperm.mem_iff
  rw [heq]
  simp only [List.headD_cons, List.tail_cons]
  rw [mem_phrase_filter_loop hv
    (fun s hs => hsorted s ((hmemiff s).mp (List.mem_cons_of_mem s0 hs)))]
  constructor
  · rintro ⟨hs0, hall, hf⟩
    refine ⟨?_, hf⟩
    intro s hs
    rcases List.mem_cons.mp ((hmemiff s).mpr hs) with rfl | hs2
    · exact hs0
    · exact hall s hs2
  · rintro ⟨hall, hf⟩
    refine ⟨hall s0 ((hmemiff s0).mp (List.mem_cons_self s0 rest)), ?_, hf⟩
    intro s hs
    exact hall s ((hmemiff s).mp (List.mem_cons_of_mem s0 hs))

/-- Membership in a `PhraseQuery`'s candidate set: a valid id is produced iff
the phrase is nonempty, the id lies in every term's posting list, and the
document filter (when needed) accepts its document. -/
theorem mem_phrase_find_ids {db : Db} {df : DocFilter} {ts : List Nat} {v : SentenceId}
    (hv : v.isValid = true) (hidx : ∀ t, SortedLe (db.index t)) :
    v ∈ phrase_find_ids db df ts ↔
      ts ≠ [] ∧ (∀ t ∈ ts, v ∈ db.index t) ∧
        (df.needed = true → df.filterDoc v.doc = true) := by
  unfold phrase_find_ids
  cases ts with
  | nil => simp
  | cons t0 ts2 =>
    simp only [List.map_cons, List.isEmpty_cons, Bool.false_eq_true, if_false]
    rw [show (db.index t0 :: ts2.map (fun t => db.index t))
        = (t0 :: ts2).map (fun t => db.index t) by simp]
    rw [mem_seed_loop hv (by simp) ?hsort]
    case hsort =>
      intro s hs
      rcases List.mem_map.mp hs with ⟨t, _, rfl⟩
      exact hidx t
    constructor
    · rintro ⟨hall, hf⟩
      refine ⟨by simp, ?_, hf⟩
      intro t ht
      exact hall (db.index t) (List.mem_map_of_mem _ ht)
    · rintro ⟨_, hall, hf⟩
      refine ⟨?_, hf⟩
      intro s hs
      rcases List.mem_map.mp hs with ⟨t, ht, rfl⟩
      exact hall t ht

/-- Membership in an `IntersectingPhraseQuery`'s candidate set: with the term
posting lists of both phrases pooled, a valid id is produced iff the pool is
nonempty and the id lies in every pooled posting list (with the filter
condition when one is needed). -/
theorem mem_intersecting_phrase_find_ids {db : Db} {df : DocFilter}
    {phrases : List (List Nat)} {v : SentenceId}
    (hv : v.isValid = true) (hidx : ∀ t, SortedLe (db.index t))
    (hne : phrases.flatten ≠ []) :
    v ∈ intersecting_phrase_find_ids db df phrases ↔
      (∀ t ∈ phrases.flatten, v ∈ db.index t) ∧
        (df.needed = true → df.filterDoc v.doc = true) := by
  unfold intersecting_phrase_find_ids
  have hflat : (phrases.map (fun p => p.map (fun t => db.index t))).flatten
      = phrases.flatten.map (fun t => db.index t) := by
    rw [List.map_flatten]
  rw [hflat]
  rw [mem_seed_loop hv (by simpa using hne) ?hsort]
  case hsort =>
    intro s hs
    rcases List.mem_map.mp hs with ⟨t, _, rfl⟩
    exact hidx t
  constructor
  · rintro ⟨hall, hf⟩
    exact ⟨fun t ht => hall (db.index t) (List.mem_map_of_mem _ ht), hf⟩
  · rintro ⟨hall, hf⟩
    refine ⟨?_, hf⟩
    intro s hs
    rcases List.mem_map.mp hs with ⟨t, ht, rfl⟩
    exact hall t ht

/-- Membership in a `KeywordsQuery`'s result (for either caller kind): a valid
id is produced iff some keyword's posting list contains it and the document
filter (when needed) accepts its document. -/
theorem mem_keywords_find_ids {db : Db} {df : DocFilter} {ks : List Nat}
    {caller : CallerType} {v : SentenceId}
    (hv : v.isValid = true) (hidx : ∀ t, SortedLe (db.index t)) :
    v ∈ keywords_find_ids db df ks caller ↔
      (∃ t ∈ ks, v ∈ db.index t) ∧
        (df.needed = true → df.filterDoc v.doc = true) := by
  have hgen : ∀ ks2 : List Nat,
      (v ∈ dedupAdj (sortIds (ks2.map (fun t => db.index t)).flatten) ↔
        ∃ t ∈ ks2, v ∈ db.index t) := by
    intro ks2
    rw [mem_dedupAdj, mem_sortIds, List.mem_flatten]
    constructor
    · rintro ⟨s, hs, hvs⟩
      rcases List.mem_map.mp hs with ⟨t, ht, rfl⟩
      exact ⟨t, ht, hvs⟩
    · rintro ⟨t, ht, hvt⟩
      exact ⟨db.index t, List.mem_map_of_mem _ ht, hvt⟩
  match ks with
  | [lhs, rhs] =>
    unfold keywords_find_ids
    rw [mem_df_retain hv]
    have hmerge : (merge_slices (db.index lhs) (db.index rhs)).Perm
        (db.index lhs ++ db.index rhs) :=
      (par_merge_go_correct _ _ _ (by omega) (hidx lhs) (hidx rhs)).1
    have hmm : ∀ ids ∈ [dedupAdj (merge_slices (db.index lhs) (db.index rhs)),
        merge_slices (db.index lhs) (db.index rhs)], (v ∈ ids ↔
          v ∈ db.index lhs ∨ v ∈ db.index rhs) := by
      intro ids hids
      rcases List.mem_cons.mp hids with rfl | hids2
      · rw [mem_dedupAdj, hmerge.mem_iff, List.mem_append]
      · rcases List.mem_cons.mp hids2 with rfl | hids3
        · rw [hmerge.mem_iff, List.mem_append]
        · cases hids3
    by_cases hcall : caller.intersect = true
    · simp only [hcall, Bool.not_true, Bool.false_eq_true, if_false]
      rw [hmm _ (by simp)]
      simp [List.mem_cons]
    · have : (!caller.intersect) = true := by
        revert hcall; cases caller.intersect <;> simp
      simp only [this, if_true]
      rw [hmm _ (by simp)]
      simp [List.mem_cons]
  | [] =>
    unfold keywords_find_ids
    rw [mem_df_retain hv, hgen []]
  | [k] =>
    unfold keywords_find_ids
    rw [mem_df_retain hv, hgen [k]]
  | a :: b :: c :: tl =>
    unfold keywords_find_ids
    rw [mem_df_retain hv, hgen (a :: b :: c :: tl)]

/-- `IntersectingQuery` over a single evaluated child returns it unchanged. -/
theorem intersect_find_ids_single (df : DocFilter) (s : List SentenceId) :
    intersect_find_ids df [s] = s := rfl

/-- Membership in `IntersectingQuery`'s result, with at least two children:
a valid id is produced iff every child list contains it and the node's
document filter accepts its document (the filter here is applied
unconditionally, not gated on `needed()`). -/
theorem mem_intersect_find_ids {df : DocFilter} {sets : List (List SentenceId)}
    {v : SentenceId} (hv : v.isValid = true) (hlen : 1 < sets.length) :
    v ∈ intersect_find_ids df sets ↔
      (∀ s ∈ sets, v ∈ s) ∧ df.filterDoc v.doc = true := by
  have hperm := sortByLen_perm sets
  have hlen2 : 1 < (sortByLen sets).length := by rw [hperm.length_eq]; exact hlen
  obtain ⟨s0, rest, heq⟩ := List.exists_cons_of_ne_nil
    (l := sortByLen sets) (fun h => by rw [h] at hlen2; simp at hlen2)
  have hmemiff : ∀ s : List SentenceId, s ∈ s0 :: rest ↔ s ∈ sets := by
    intro s; rw [← heq]; exact hperm.mem_iff
  have hrestne : rest ≠ [] := by
    intro h
    rw [h] at heq
    rw [heq] at hlen2
    simp at hlen2
  unfold intersect_find_ids
  rw [heq]
  dsimp only
  rw [if_neg (by simpa using hrestne)]
  rw [mem_foldl_retain (fun s v => bsearchContains (sortIds s) v && df.filterDoc v.doc)
    rest (sortIds s0) hv]
  rw [mem_sortIds]
  obtain ⟨r0, rest0, rfl⟩ := List.exists_cons_of_ne_nil hrestne
  constructor
  · rintro ⟨hs0, hall⟩
    have h0 := hall r0 (List.mem_cons_self r0 rest0)
    simp only [Bool.and_eq_true] at h0
    refine ⟨?_, h0.2⟩
    intro s hs
    rcases List.mem_cons.mp ((hmemiff s).mpr hs) with rfl | hs2
    · exact hs0
    · have := hall s hs2
      simp only [Bool.and_eq_true] at this
      exact bsearchContains_sortIds_iff_mem.mp this.1
  · rintro ⟨hall, hf⟩
    refine ⟨hall s0 ((hmemiff s0).mp (List.mem_cons_self s0 _)), ?_⟩
    intro s hs
    simp only [Bool.and_eq_true]
    exact ⟨bsearchContains_sortIds_iff_mem.mpr
      (hall s ((hmemiff s).mp (List.mem_cons_of_mem s0 hs))), hf⟩

/-- Membership in `UnionQuery`'s result: exactly the valid ids occurring in
some child list. -/
theorem mem_union_find_ids {sets : List (List SentenceId)} {v : SentenceId} :
    v ∈ union_find_ids sets ↔ v.isValid = true ∧ ∃ s ∈ sets, v ∈ s := by
  unfold union_find_ids
  rw [mem_dedupAdj, mem_sortIds, List.mem_filter, List.mem_flatten]
  tauto

/-- For valid ids, the produced id SET of any query node does not depend on
the caller kind: only `KeywordsQuery` reads it, and there it only toggles
`dedup`. -/
theorem mem_find_caller_irrel (db : Db) (hidx : ∀ t, SortedLe (db.index t))
    {q : Qry} {c₁ c₂ : CallerType} {v : SentenceId} (hv : v.isValid = true) :
    v ∈ find_sentence_ids db q c₁ ↔ v ∈ find_sentence_ids db q c₂ := by
  cases q with
  | phrase ts df => exact Iff.rfl
  | keywords ks df =>
    show v ∈ keywords_find_ids db df ks c₁ ↔ v ∈ keywords_find_ids db df ks c₂
    rw [mem_keywords_find_ids hv hidx, mem_keywords_find_ids hv hidx]
  | intersecting cs df => exact Iff.rfl
  | intersectingPhrase ps df => exact Iff.rfl
  | unionQ cs => exact Iff.rfl

/-- C4: for every database and every pair of sub-queries, the valid ids
produced by `IntersectingQuery::find_sentence_ids` form a subset of the
intersection of the two sub-queries' own result sets; with the unit document
filter (whose `filter_document` is constantly true) the sets are exactly
equal. -/
theorem C4_intersecting_query_sound (db : Db) (q1 q2 : Qry) (df : DocFilter)
    (caller : CallerType) (v : SentenceId)
    (hdb : WfDb db) (hv : v.isValid = true) :
    (v ∈ find_sentence_ids db (.intersecting [q1, q2] df) caller →
      v ∈ find_sentence_ids db q1 .topLevel ∧ v ∈ find_sentence_ids db q2 .topLevel) ∧
    ((∀ d, df.filterDoc d = true) →
      (v ∈ find_sentence_ids db (.intersecting [q1, q2] df) caller ↔
        v ∈ find_sentence_ids db q1 .topLevel ∧ v ∈ find_sentence_ids db q2 .topLevel)) := by
  have hidx := hdb.sortedLe
  have hshape : find_sentence_ids db (.intersecting [q1, q2] df) caller
      = intersect_find_ids df
          [find_sentence_ids db q1 .intersection, find_sentence_ids db q2 .intersection] := rfl
  have hmm : v ∈ intersect_find_ids df
      [find_sentence_ids db q1 .intersection, find_sentence_ids db q2 .intersection] ↔
      (∀ s ∈ [find_sentence_ids db q1 .intersection,
        find_sentence_ids db q2 .intersection], v ∈ s) ∧ df.filterDoc v.doc = true :=
    mem_intersect_find_ids hv (by simp)
  have hc1 : v ∈ find_sentence_ids db q1 .intersection ↔
      v ∈ find_sentence_ids db q1 .topLevel := mem_find_caller_irrel db hidx hv
  have hc2 : v ∈ find_sentence_ids db q2 .intersection ↔
      v ∈ find_sentence_ids db q2 .topLevel := mem_find_caller_irrel db hidx hv
  constructor
  · intro hmem
    rw [hshape] at hmem
    obtain ⟨hall, _⟩ := hmm.mp hmem
    exact ⟨hc1.mp (hall _ (by simp)), hc2.mp (hall _ (by simp [List.mem_cons]))⟩
  · intro htriv
    rw [hshape, hmm]
    constructor
    · rintro ⟨hall, _⟩
      exact ⟨hc1.mp (hall _ (by simp)), hc2.mp (hall _ (by simp [List.mem_cons]))⟩
    · rintro ⟨h1, h2⟩
      refine ⟨?_, htriv v.doc⟩
      intro s hs
      rcases List.mem_cons.mp hs with rfl | hs2
      · exact hc1.mpr h1
      · rcases List.mem_cons.mp hs2 with rfl | hs3
        · exact hc2.mpr h2
        · cases hs3

theorem scenarioDb_wf : WfDb scenarioDb := by
  intro t
  show SortedLt (scenario_index t) ∧ ∀ v ∈ scenario_index t, v.isValid = true
  unfold scenario_index
  split_ifs <;> exact ⟨by decide, by decide⟩

/-- Witness for C4 on the scenario corpus: `quick AND fox` as an
`IntersectingQuery` of two phrase sub-queries under the unit filter; the
produced set is exactly the intersection, here the single id `(1,0)`. -/
theorem C4_intersecting_query_witness :
    WfDb scenarioDb ∧ (⟨1, 0⟩ : SentenceId).isValid = true ∧
    (∀ d, unitDF.filterDoc d = true) ∧
    ((⟨1, 0⟩ : SentenceId) ∈ find_sentence_ids scenarioDb
        (.intersecting [.phrase [2] unitDF, .phrase [4] unitDF] unitDF) .topLevel ↔
      (⟨1, 0⟩ : SentenceId) ∈ find_sentence_ids scenarioDb (.phrase [2] unitDF) .topLevel ∧
        (⟨1, 0⟩ : SentenceId) ∈ find_sentence_ids scenarioDb (.phrase [4] unitDF) .topLevel) :=
  ⟨scenarioDb_wf, by decide, fun _ => rfl,
    (C4_intersecting_query_sound scenarioDb (.phrase [2] unitDF) (.phrase [4] unitDF)
      unitDF .topLevel ⟨1, 0⟩ scenarioDb_wf (by decide)).2 (fun _ => rfl)⟩

theorem foldl_retain_nil (p : List SentenceId → SentenceId → Bool) :
    ∀ (sets : List (List SentenceId)),
      sets.foldl (fun acc s => retain (p s) acc) [] = [] := by
  intro sets
  induction sets with
  | nil => rfl
  | cons s rest ih => simpa [retain] using ih

theorem phrase_filter_loop_nil (df : DocFilter) (rest : List (List SentenceId)) :
    phrase_filter_loop df [] rest = [] := by
  unfold phrase_filter_loop
  by_cases hneed : df.needed = true
  · rw [if_pos hneed]
    by_cases hrest : rest.isEmpty = true
    · rw [if_pos hrest]; rfl
    · rw [if_neg hrest]
      exact foldl_retain_nil _ rest
  · rw [if_neg hneed]
    exact foldl_retain_nil _ rest

/-- The head of the length-sorted list of posting lists is empty as soon as
one of them is empty. -/
theorem sortByLen_headD_nil {sets : List (List SentenceId)}
    (h : ([] : List SentenceId) ∈ sets) : (sortByLen sets).headD [] = [] := by
  have hmem : ([] : List SentenceId) ∈ sortByLen sets := (sortByLen_perm sets).mem_iff.mpr h
  have hpair : (sortByLen sets).Pairwise (fun a b : List SentenceId => a.length ≤ b.length) :=
    List.sorted_insertionSort _ sets
  cases hs : sortByLen sets with
  | nil => rw [hs] at hmem; cases hmem
  | cons s0 rest =>
    rw [hs] at hmem hpair
    rcases List.mem_cons.mp hmem with heq | hmem2
    · simpa using heq.symm
    · have hle : s0.length ≤ ([] : List SentenceId).length :=
        (List.pairwise_cons.mp hpair).1 [] hmem2
      simpa using List.eq_nil_of_length_eq_zero (by simpa using hle)

/-- C9: `FrozenTermMap::tokenize_phrase` maps every out-of-vocabulary word to
term id 0, and a `PhraseQuery` whose phrase contains a term id with no
posting list in the index (in particular id 0) produces the empty result set
from `find_sentence_ids`, for every database, filter and caller - no error is
raised. -/
theorem C9_unknown_terms_never_match :
    (∀ (term : String → Option Nat) (words : List String) (i : Nat)
        (hi : i < words.length), term words[i] = none →
          (tokenize_phrase term words)[i]? = some 0) ∧
    (∀ (db : Db) (df : DocFilter) (phrase : List Nat) (t : Nat)
        (caller : CallerType), t ∈ phrase → db.index t = [] →
          find_sentence_ids db (.phrase phrase df) caller = []) := by
  constructor
  · intro term words i hi hnone
    rw [tokenize_phrase, List.getElem?_map]
    rw [List.getElem?_eq_getElem hi]
    simp [hnone]
  · intro db df phrase t caller hmem hempty
    show phrase_find_ids db df phrase = []
    unfold phrase_find_ids
    have hne : phrase.map (fun t => db.index t) ≠ [] := by
      simp only [ne_eq, List.map_eq_nil_iff]
      intro h
      rw [h] at hmem
      cases hmem
    rw [if_neg (by simpa using hne)]
    have hnilmem : ([] : List SentenceId) ∈ phrase.map (fun t => db.index t) := by
      rw [← hempty]
      exact List.mem_map_of_mem _ hmem
    dsimp only
    rw [sortByLen_headD_nil hnilmem]
    exact phrase_filter_loop_nil df _

/-- Witness for C9, on the scenario corpus: `zzzzz` is out of vocabulary, so
`tokenize_phrase` yields term id 0, whose posting list is absent, and the
phrase query for it returns no results. -/
theorem C9_unknown_terms_witness :
    scenario_term "zzzzz" = none ∧ scenario_tok "zzzzz" = [0] ∧
      (0 : Nat) ∈ scenario_tok "zzzzz" ∧ scenarioDb.index 0 = [] ∧
      (scenario_tok "zzzzz")[0]? = some 0 ∧
      find_sentence_ids scenarioDb (.phrase (scenario_tok "zzzzz") unitDF) .topLevel = [] :=
  ⟨by decide, by decide, by decide, by decide,
    (C9_unknown_terms_never_match).1 scenario_term ["zzzzz"] 0 (by decide) (by decide),
    (C9_unknown_terms_never_match).2 scenarioDb unitDF (scenario_tok "zzzzz") 0 .topLevel
      (by decide) (by decide)⟩

/-- C10: `PhraseQuery::find_sentence_ids` on an empty phrase (zero term ids,
as tokenized from an empty or whitespace-only query) returns the empty
sentence-id list for every database, filter and caller: the
`term_sets.is_empty()` early return makes the operation total, and the
`term_sets[0]` indexing below it is never reached on empty input. -/
theorem C10_empty_phrase_returns_empty (db : Db) (df : DocFilter) (caller : CallerType) :
    find_sentence_ids db (.phrase [] df) caller = [] := rfl

theorem idlist_iter_sorted_of_sorted {l : List SentenceId} (h : SortedLe l) :
    SortedLe (idlist_iter l) :=
  SortedLe.sublist (List.filter_sublist l) h

theorem filter_and_sublist {α : Type} (p q : α → Bool) (l : List α) :
    (l.filter (fun a => p a && q a)).Sublist (l.filter p) := by
  induction l with
  | nil => simp
  | cons a t ih =>
    by_cases hp : p a = true
    · by_cases hq : q a = true
      · simpa [List.filter_cons, hp, hq] using ih.cons₂ a
      · simpa [List.filter_cons, hp, hq] using ih.cons a
    · simpa [List.filter_cons, hp] using ih

theorem idlist_iter_retain_sublist (keep : SentenceId → Bool) (l : List SentenceId) :
    (idlist_iter (retain keep l)).Sublist (idlist_iter l) := by
  unfold idlist_iter
  rw [retain_filter_isValid]
  exact filter_and_sublist _ keep l

theorem idlist_iter_foldl_retain_sublist (p : List SentenceId → SentenceId → Bool) :
    ∀ (sets : List (List SentenceId)) (init : List SentenceId),
      (idlist_iter (sets.foldl (fun acc s => retain (p s) acc) init)).Sublist
        (idlist_iter init) := by
  intro sets
  induction sets with
  | nil => intro init; exact List.Sublist.refl _
  | cons s rest ih =>
    intro init
    simp only [List.foldl_cons]
    exact (ih (retain (p s) init)).trans (idlist_iter_retain_sublist (p s) init)

theorem idlist_iter_phrase_filter_loop_sublist (df : DocFilter) (seed : List SentenceId)
    (rest : List (List SentenceId)) :
    (idlist_iter (phrase_filter_loop df seed rest)).Sublist (idlist_iter seed) := by
  unfold phrase_filter_loop
  by_cases hneed : df.needed = true
  · rw [if_pos hneed]
    by_cases hrest : rest.isEmpty = true
    · rw [if_pos hrest]
      exact idlist_iter_retain_sublist _ seed
    · rw [if_neg hrest]
      exact idlist_iter_foldl_retain_sublist _ rest seed
  · rw [if_neg hneed]
    exact idlist_iter_foldl_retain_sublist _ rest seed

theorem sortByLen_headD_mem_or_nil (sets : List (List SentenceId)) :
    (sortByLen sets).headD [] = [] ∨ (sortByLen sets).headD [] ∈ sets := by
  cases hs : sortByLen sets with
  | nil => exact Or.inl rfl
  | cons s0 rest =>
    refine Or.inr ?_
    have : s0 ∈ sortByLen sets := by rw [hs]; exact List.mem_cons_self s0 rest
    simpa using (sortByLen_perm sets).mem_iff.mp this

theorem phrase_filter_loop_iter_sorted {db : Db} (hdb : WfDb db) (df : DocFilter)
    (term_sets : List (List SentenceId))
    (hmem : ∀ s ∈ term_sets, ∃ t, s = db.index t) :
    SortedLe (idlist_iter
      (phrase_filter_loop df ((sortByLen term_sets).headD []) (sortByLen term_sets).tail)) := by
  have hsub := idlist_iter_phrase_filter_loop_sublist df
    ((sortByLen term_sets).headD []) (sortByLen term_sets).tail
  refine SortedLe.sublist hsub ?_
  rcases sortByLen_headD_mem_or_nil term_sets with hnil | hmem2
  · rw [hnil]; exact List.Pairwise.nil
  · rcases hmem _ hmem2 with ⟨t, ht⟩
    rw [ht]
    exact idlist_iter_sorted_of_sorted (hdb.sortedLe t)

theorem phrase_find_ids_iter_sorted {db : Db} (hdb : WfDb db) (df : DocFilter)
    (ts : List Nat) : SortedLe (idlist_iter (phrase_find_ids db df ts)) := by
  unfold phrase_find_ids
  by_cases he : (ts.map (fun t => db.index t)).isEmpty = true
  · rw [if_pos he]; exact List.Pairwise.nil
  · rw [if_neg he]
    refine phrase_filter_loop_iter_sorted hdb df _ ?_
    intro s hs
    rcases List.mem_map.mp hs with ⟨t, _, rfl⟩
    exact ⟨t, rfl⟩

theorem intersecting_phrase_find_ids_iter_sorted {db : Db} (hdb : WfDb db)
    (df : DocFilter) (ps : List (List Nat)) :
    SortedLe (idlist_iter (intersecting_phrase_find_ids db df ps)) := by
  unfold intersecting_phrase_find_ids
  refine phrase_filter_loop_iter_sorted hdb df _ ?_
  intro s hs
  rcases List.mem_flatten.mp hs with ⟨inner, hinner, hsin⟩
  rcases List.mem_map.mp hinner with ⟨p, _, rfl⟩
  rcases List.mem_map.mp hsin with ⟨t, _, rfl⟩
  exact ⟨t, rfl⟩

theorem keywords_find_ids_iter_sorted {db : Db} (hdb : WfDb db) (df : DocFilter)
    (ks : List Nat) (caller : CallerType) :
    SortedLe (idlist_iter (keywords_find_ids db df ks caller)) := by
  have hids : ∀ ids : List SentenceId, SortedLe ids →
      SortedLe (idlist_iter (if df.needed then
        retain (fun id => df.filterDoc id.doc) ids else ids)) := by
    intro ids hsorted
    by_cases hneed : df.needed = true
    · rw [if_pos hneed]
      exact SortedLe.sublist (idlist_iter_retain_sublist _ ids)
        (idlist_iter_sorted_of_sorted hsorted)
    · rw [if_neg hneed]
      exact idlist_iter_sorted_of_sorted hsorted
  match ks with
  | [lhs, rhs] =>
    unfold keywords_find_ids
    have hmerge : SortedLe (merge_slices (db.index lhs) (db.index rhs)) :=
      (par_merge_go_correct _ _ _ (by omega) (hdb.sortedLe lhs) (hdb.sortedLe rhs)).2
    by_cases hcall : (!caller.intersect) = true
    · simp only [hcall, if_true]
      exact hids _ (dedupAdj_sorted hmerge)
    · simp only [hcall, Bool.false_eq_true, if_false]
      exact hids _ hmerge
  | [] => exact hids _ (by simp [sortIds]; exact List.Pairwise.nil)
  | [k] =>
    unfold keywords_find_ids
    exact hids _ (dedupAdj_sorted (sortIds_sorted _))
  | a :: b :: c :: tl =>
    unfold keywords_find_ids
    exact hids _ (dedupAdj_sorted (sortIds_sorted _))

theorem union_find_ids_iter_sorted (sets : List (List SentenceId)) :
    SortedLe (idlist_iter (union_find_ids sets)) :=
  idlist_iter_sorted_of_sorted (dedupAdj_sorted (sortIds_sorted _))

theorem intersect_find_ids_iter_sorted (df : DocFilter) (sets : List (List SentenceId))
    (hch : ∀ s ∈ sets, SortedLe (idlist_iter s)) :
    SortedLe (idlist_iter (intersect_find_ids df sets)) := by
  unfold intersect_find_ids
  cases hs : sortByLen sets with
  | nil => exact List.Pairwise.nil
  | cons first rest =>
    have hfirst : first ∈ sets := by
      refine (sortByLen_perm sets).mem_iff.mp ?_
      rw [hs]; exact List.mem_cons_self first rest
    dsimp only
    by_cases hre : rest.isEmpty = true
    · rw [if_pos hre]
      exact hch first hfirst
    · rw [if_neg hre]
      refine SortedLe.sublist (idlist_iter_foldl_retain_sublist _ rest (sortIds first)) ?_
      exact idlist_iter_sorted_of_sorted (sortIds_sorted first)

mutual

theorem find_sentence_ids_iter_sorted (db : Db) (hdb : WfDb db) :
    (q : Qry) → (c : CallerType) → SortedLe (idlist_iter (find_sentence_ids db q c))
  | .phrase ts df, _ => phrase_find_ids_iter_sorted hdb df ts
  | .keywords ks df, c => keywords_find_ids_iter_sorted hdb df ks c
  | .intersecting cs df, _ =>
    intersect_find_ids_iter_sorted df (find_each db cs .intersection)
      (find_each_iter_sorted db hdb cs .intersection)
  | .intersectingPhrase ps df, _ => intersecting_phrase_find_ids_iter_sorted hdb df ps
  | .unionQ cs, _ => union_find_ids_iter_sorted (find_each db cs .union)

theorem find_each_iter_sorted (db : Db) (hdb : WfDb db) :
    (cs : List Qry) → (c : CallerType) →
      ∀ s ∈ find_each db cs c, SortedLe (idlist_iter s)
  | [], _ => by intro s hs; cases hs
  | q :: qs, c => by
    intro s hs
    rcases List.mem_cons.mp hs with rfl | hs2
    · exact find_sentence_ids_iter_sorted db hdb q c
    · exact find_each_iter_sorted db hdb qs c s hs2

end

theorem run_results_go_ids_sublist (db : Db) (q : Qry) :
    ∀ (ids : List SentenceId) (res : List (SentenceId × List CopyableRange)),
      run_results_go db q ids = some res → (res.map Prod.fst).Sublist ids := by
  intro ids
  induction ids with
  | nil =>
    intro res h
    simp only [run_results_go, Option.some.injEq] at h
    subst h
    exact List.Sublist.refl _
  | cons v vs ih =>
    intro res h
    simp only [run_results_go] at h
    cases hfm : filter_map q (db.sentence v) with
    | none => rw [hfm] at h; cases h
    | some pair =>
      rw [hfm] at h
      cases hgo : run_results_go db q vs with
      | none => rw [hgo] at h; cases h
      | some rest =>
        rw [hgo] at h
        simp only [Option.some.injEq] at h
        subst h
        by_cases hk : pair.1 = true
        · rw [hk, if_pos rfl]
          simpa using (ih rest hgo).cons₂ v
        · rw [if_neg hk]
          exact (ih rest hgo).cons v

theorem nodup_fst_eq {K V : Type} : ∀ {m : List (K × V)}, (m.map Prod.fst).Nodup →
    ∀ {a b : K × V}, a ∈ m → b ∈ m → a.1 = b.1 → a = b := by
  intro m
  induction m with
  | nil => intro _ a b ha; cases ha
  | cons p rest ih =>
    intro hnd a b ha hb hfst
    rw [List.map_cons, List.nodup_cons] at hnd
    rcases List.mem_cons.mp ha with rfl | ha2
    · rcases List.mem_cons.mp hb with rfl | hb2
      · rfl
      · exact absurd (hfst ▸ List.mem_map_of_mem Prod.fst hb2) hnd.1
    · rcases List.mem_cons.mp hb with rfl | hb2
      · exact absurd (hfst ▸ List.mem_map_of_mem Prod.fst ha2) hnd.1
      · exact ih hnd.2 ha2 hb2 hfst

theorem perfectOn_exists {K : Type} {h : K → Option Nat} {keys : List K}
    (hp : PerfectOn h keys) : ∀ k ∈ keys, ∃ i, h k = some i ∧ i < keys.length := by
  intro k hk
  have hmem : h k ∈ (List.range keys.length).map some :=
    hp.mem_iff.mp (List.mem_map_of_mem h hk)
  rcases List.mem_map.mp hmem with ⟨i, hi, heq⟩
  exact ⟨i, heq.symm, List.mem_range.mp hi⟩

theorem perfectOn_inj {K : Type} {h : K → Option Nat} {keys : List K}
    (hp : PerfectOn h keys) : ∀ a ∈ keys, ∀ b ∈ keys, h a = h b → a = b := by
  have hnd : (keys.map h).Nodup := by
    refine hp.nodup_iff.mpr ?_
    exact (List.nodup_range _).map (fun x y => Option.some.inj)
  exact List.inj_on_of_nodup_map hnd

theorem write_fold_length {K V : Type} [DecidableEq K] (h : K → Option Nat) (n : Nat) :
    ∀ (ps : List (K × V)) (acc : List (Option K) × List (Option V)),
      acc.1.length = n → acc.2.length = n →
      ((ps.foldl (fun acc kv =>
          ((acc.1.set ((h kv.1).getD n) (some kv.1),
            acc.2.set ((h kv.1).getD n) (some kv.2)) :
              List (Option K) × List (Option V))) acc).1.length = n ∧
        (ps.foldl (fun acc kv =>
          ((acc.1.set ((h kv.1).getD n) (some kv.1),
            acc.2.set ((h kv.1).getD n) (some kv.2)) :
              List (Option K) × List (Option V))) acc).2.length = n) := by
  intro ps
  induction ps with
  | nil => intro acc h1 h2; exact ⟨h1, h2⟩
  | cons p rest ih =>
    intro acc h1 h2
    simp only [List.foldl_cons]
    exact ih _ (by simpa using h1) (by simpa using h2)

theorem write_fold_stable {K V : Type} [DecidableEq K] (h : K → Option Nat) (n : Nat)
    {i : Nat} {k : K} {v : V} (hi : i < n) :
    ∀ (ps : List (K × V)) (acc : List (Option K) × List (Option V)),
      acc.1.length = n → acc.2.length = n →
      (∀ q ∈ ps, h q.1 = some i → q.1 = k ∧ q.2 = v) →
      acc.1[i]? = some (some k) → acc.2[i]? = some (some v) →
      ((ps.foldl (fun acc kv =>
          ((acc.1.set ((h kv.1).getD n) (some kv.1),
            acc.2.set ((h kv.1).getD n) (some kv.2)) :
              List (Option K) × List (Option V))) acc).1[i]? = some (some k) ∧
        (ps.foldl (fun acc kv =>
          ((acc.1.set ((h kv.1).getD n) (some kv.1),
            acc.2.set ((h kv.1).getD n) (some kv.2)) :
              List (Option K) × List (Option V))) acc).2[i]? = some (some v)) := by
  intro ps
  induction ps with
  | nil => intro acc h1 h2 _ hk hv; exact ⟨hk, hv⟩
  | cons p rest ih =>
    intro acc h1 h2 huniq hk hv
    simp only [List.foldl_cons]
    by_cases hp : h p.1 = some i
    · obtain ⟨hpk, hpv⟩ := huniq p (List.mem_cons_self p rest) hp
      refine ih _ (by simpa using h1) (by simpa using h2)
        (fun q hq => huniq q (List.mem_cons_of_mem p hq)) ?_ ?_
      · rw [hp]
        simp only [Option.getD_some]
        rw [List.getElem?_set_self (by omega), hpk]
      · rw [hp]
        simp only [Option.getD_some]
        rw [List.getElem?_set_self (by omega), hpv]
    · have hne : (h p.1).getD n ≠ i := by
        cases hh : h p.1 with
        | none => simp only [Option.getD_none]; omega
        | some j =>
          simp only [Option.getD_some]
          intro hji
          exact hp (by rw [hh, hji])
      refine ih _ (by simpa using h1) (by simpa using h2)
        (fun q hq => huniq q (List.mem_cons_of_mem p hq)) ?_ ?_
      · rw [List.getElem?_set_ne hne, hk]
      · rw [List.getElem?_set_ne hne, hv]

theorem write_fold_spec {K V : Type} [DecidableEq K] (h : K → Option Nat) (n : Nat) :
    ∀ (ps : List (K × V)) (acc : List (Option K) × List (Option V)),
      acc.1.length = n → acc.2.length = n →
      ∀ kv ∈ ps, ∀ i, h kv.1 = some i → i < n →
      (∀ q ∈ ps, h q.1 = some i → q.1 = kv.1 ∧ q.2 = kv.2) →
      ((ps.foldl (fun acc kv =>
          ((acc.1.set ((h kv.1).getD n) (some kv.1),
            acc.2.set ((h kv.1).getD n) (some kv.2)) :
              List (Option K) × List (Option V))) acc).1[i]? = some (some kv.1) ∧
        (ps.foldl (fun acc kv =>
          ((acc.1.set ((h kv.1).getD n) (some kv.1),
            acc.2.set ((h kv.1).getD n) (some kv.2)) :
              List (Option K) × List (Option V))) acc).2[i]? = some (some kv.2)) := by
  intro ps
  induction ps with
  | nil => intro acc _ _ kv hkv; cases hkv
  | cons p rest ih =>
    intro acc h1 h2 kv hkv i hhash hilt huniq
    rcases List.mem_cons.mp hkv with rfl | hkv2
    · simp only [List.foldl_cons]
      refine write_fold_stable h n hilt rest _ (by simpa using h1) (by simpa using h2)
        (fun q hq => huniq q (List.mem_cons_of_mem kv hq)) ?_ ?_
      · rw [hhash]
        simp only [Option.getD_some]
        rw [List.getElem?_set_self (by omega)]
      · rw [hhash]
        simp only [Option.getD_some]
        rw [List.getElem?_set_self (by omega)]
    · simp only [List.foldl_cons]
      exact ih _ (by simpa using h1) (by simpa using h2) kv hkv2 i hhash hilt
        (fun q hq => huniq q (List.mem_cons_of_mem p hq))

/-- The central `ImmutableMap` fact: built over a perfect hasher for its key
set (keys pairwise distinct), `get` returns exactly the value stored for the
key. -/
theorem buildImmMap_get {K V : Type} [DecidableEq K] (h : K → Option Nat)
    (pairs : List (K × V)) (hnd : (pairs.map Prod.fst).Nodup)
    (hp : PerfectOn h (pairs.map Prod.fst)) :
    ∀ kv ∈ pairs, (buildImmMap h pairs).get kv.1 = some kv.2 := by
  intro kv hkv
  obtain ⟨i, hhash, hilt⟩ := perfectOn_exists hp kv.1 (List.mem_map_of_mem Prod.fst hkv)
  rw [List.length_map] at hilt
  have huniq : ∀ q ∈ pairs, h q.1 = some i → q.1 = kv.1 ∧ q.2 = kv.2 := by
    intro q hq hqh
    have hfst : q.1 = kv.1 := perfectOn_inj hp q.1 (List.mem_map_of_mem Prod.fst hq)
      kv.1 (List.mem_map_of_mem Prod.fst hkv) (by rw [hqh, hhash])
    have := nodup_fst_eq hnd hq hkv hfst
    exact ⟨congrArg Prod.fst this, congrArg Prod.snd this⟩
  have hspec := write_fold_spec h pairs.length pairs
    (List.replicate pairs.length (none : Option K),
      List.replicate pairs.length (none : Option V))
    (by simp) (by simp) kv hkv i hhash hilt huniq
  show ImmMap.get _ kv.1 = some kv.2
  unfold buildImmMap
  unfold ImmMap.get
  simp only
  rw [hhash]
  dsimp only
  rw [hspec.1]
  dsimp only
  rw [if_pos rfl, hspec.2]
  rfl

theorem mapInsert_nodup {K V : Type} [DecidableEq K] {m : List (K × V)}
    (h : (m.map Prod.fst).Nodup) (k : K) (v : V) :
    ((mapInsert k v m).map Prod.fst).Nodup := by
  unfold mapInsert
  rw [List.map_cons, List.nodup_cons]
  constructor
  · intro hmem
    rcases List.mem_map.mp hmem with ⟨p, hp, hpk⟩
    rcases List.mem_filter.mp hp with ⟨_, hne⟩
    simp only [decide_eq_true_eq] at hne
    exact hne hpk
  · exact List.Nodup.sublist ((List.filter_sublist m).map Prod.fst) h

theorem mem_mapInsert_self {K V : Type} [DecidableEq K] (k : K) (v : V)
    (m : List (K × V)) : (k, v) ∈ mapInsert k v m :=
  List.mem_cons_self _ _

theorem mem_mapInsert_of_ne {K V : Type} [DecidableEq K] {kv : K × V}
    {m : List (K × V)} (h : kv ∈ m) (k : K) (v : V) (hne : kv.1 ≠ k) :
    kv ∈ mapInsert k v m :=
  List.mem_cons_of_mem _ (List.mem_filter.mpr ⟨h, by simpa using hne⟩)

theorem lookup_mem {K V : Type} [BEq K] [LawfulBEq K] :
    ∀ {m : List (K × V)} {k : K} {l : V}, m.lookup k = some l → (k, l) ∈ m := by
  intro m
  induction m with
  | nil => intro k l h; cases h
  | cons p rest ih =>
    intro k l h
    rw [List.lookup] at h
    by_cases heq : (k == p.1) = true
    · rw [heq] at h
      simp only [Option.some.injEq] at h
      have : k = p.1 := by exact eq_of_beq heq
      subst this
      subst h
      exact List.mem_cons_self _ _
    · rw [Bool.not_eq_true] at heq
      rw [heq] at h
      exact List.mem_cons_of_mem _ (ih h)

theorem pushPosting_nodup {m : List (Nat × List SentenceId)}
    (h : (m.map Prod.fst).Nodup) (t : Nat) (v : SentenceId) :
    ((pushPosting t v m).map Prod.fst).Nodup := by
  unfold pushPosting
  cases m.lookup t with
  | none => exact mapInsert_nodup h t [v]
  | some l => exact mapInsert_nodup h t (l ++ [v])

theorem pushPosting_valid {P : SentenceId → Prop} {m : List (Nat × List SentenceId)}
    (h : ∀ tl ∈ m, ∀ x ∈ tl.2, P x) {v : SentenceId} (hv : P v) (t : Nat) :
    ∀ tl ∈ pushPosting t v m, ∀ x ∈ tl.2, P x := by
  unfold pushPosting
  cases hl : m.lookup t with
  | none =>
    intro tl htl x hx
    rcases List.mem_cons.mp htl with rfl | htl2
    · rcases List.mem_cons.mp hx with rfl | hx2
      · exact hv
      · cases hx2
    · exact h tl (List.mem_of_mem_filter htl2) x hx
  | some l =>
    intro tl htl x hx
    rcases List.mem_cons.mp htl with rfl | htl2
    · rcases List.mem_append.mp hx with hx2 | hx2
      · exact h (t, l) (lookup_mem hl) x hx2
      · rcases List.mem_cons.mp hx2 with rfl | hx3
        · exact hv
        · cases hx3
    · exact h tl (List.mem_of_mem_filter htl2) x hx

theorem foldl_pushPosting_nodup {v : SentenceId} :
    ∀ (terms : List Nat) (m : List (Nat × List SentenceId)),
      (m.map Prod.fst).Nodup →
      (((terms.foldl (fun m term => pushPosting term v m) m).map Prod.fst).Nodup) := by
  intro terms
  induction terms with
  | nil => intro m h; exact h
  | cons t rest ih =>
    intro m h
    exact ih _ (pushPosting_nodup h t v)

theorem foldl_pushPosting_valid {P : SentenceId → Prop} {v : SentenceId} (hv : P v) :
    ∀ (terms : List Nat) (m : List (Nat × List SentenceId)),
      (∀ tl ∈ m, ∀ x ∈ tl.2, P x) →
      ∀ tl ∈ terms.foldl (fun m term => pushPosting term v m) m, ∀ x ∈ tl.2, P x := by
  intro terms
  induction terms with
  | nil => intro m h; exact h
  | cons t rest ih =>
    intro m h
    exact ih _ (pushPosting_valid h hv t)

theorem add_sentences_spec {D M : Type} (stem : String → String) (docid : Nat) :
    ∀ (lines : List (List (Nat × String))) (idx : Nat) (bs bs2 : DatabaseBuilder D M),
      add_sentences stem docid idx lines bs = some bs2 →
      bs2.doc_storage = bs.doc_storage ∧
      bs2.doc_metadata = bs.doc_metadata ∧
      ((bs.sentence_map.map Prod.fst).Nodup → (bs2.sentence_map.map Prod.fst).Nodup) ∧
      (∀ kv ∈ bs.sentence_map, (kv.1.doc ≠ docid ∨ kv.1.sentence < idx) →
        kv ∈ bs2.sentence_map) ∧
      (∀ j, j < lines.length →
        ∃ s, ((⟨docid, idx + j⟩ : SentenceId), s) ∈ bs2.sentence_map) ∧
      ((bs.term_to_sentence.map Prod.fst).Nodup →
        (bs2.term_to_sentence.map Prod.fst).Nodup) ∧
      ((∀ tl ∈ bs.term_to_sentence, ∀ v ∈ tl.2, v.isValid = true) →
        ∀ tl ∈ bs2.term_to_sentence, ∀ v ∈ tl.2, v.isValid = true) := by
  intro lines
  induction lines with
  | nil =>
    intro idx bs bs2 h
    simp only [add_sentences, Option.some.injEq] at h
    subst h
    exact ⟨rfl, rfl, fun h => h, fun kv hkv _ => hkv,
      fun j hj => absurd hj (by simp), fun h => h, fun h => h⟩
  | cons line rest ih =>
    intro idx bs bs2 h
    simp only [add_sentences] at h
    by_cases hz : (⟨docid, idx⟩ : SentenceId) = SentenceId.zeroed
    · rw [if_pos hz] at h; cases h
    · rw [if_neg hz] at h
      set bs1 : DatabaseBuilder D M :=
        { bs with
          term_map := (tokenize_sentence stem bs.term_map line).2
          term_to_sentence := (tokenize_sentence stem bs.term_map line).1.terms.foldl
            (fun m term => pushPosting term ⟨docid, idx⟩ m) bs.term_to_sentence
          sentence_map := mapInsert ⟨docid, idx⟩ (tokenize_sentence stem bs.term_map line).1
            bs.sentence_map } with hbs1
      obtain ⟨h1, h2, h3, h4, h5, h6, h7⟩ := ih (idx + 1) bs1 bs2 h
      have hvalid : (⟨docid, idx⟩ : SentenceId).isValid = true := by
        unfold SentenceId.isValid
        simpa using hz
      refine ⟨h1, h2, ?_, ?_, ?_, ?_, ?_⟩
      · intro hnd
        exact h3 (mapInsert_nodup hnd _ _)
      · intro kv hkv hcond
        have hne : kv.1 ≠ ⟨docid, idx⟩ := by
          intro hkeq
          rcases hcond with hd | hs
          · exact hd (by rw [hkeq])
          · rw [hkeq] at hs
            simp at hs
        refine h4 kv (mem_mapInsert_of_ne hkv _ _ hne) ?_
        rcases hcond with hd | hs
        · exact Or.inl hd
        · exact Or.inr (by omega)
      · intro j hj
        cases j with
        | zero =>
          refine ⟨(tokenize_sentence stem bs.term_map line).1, ?_⟩
          refine h4 _ (mem_mapInsert_self _ _ _) ?_
          exact Or.inr (by simp)
        | succ j2 =>
          obtain ⟨s, hs⟩ := h5 j2 (by simpa using hj)
          exact ⟨s, by rw [show idx + (j2 + 1) = idx + 1 + j2 by omega]; exact hs⟩
      · intro hnd
        exact h6 (foldl_pushPosting_nodup _ _ hnd)
      · intro hval
        exact h7 (foldl_pushPosting_valid (P := fun v => v.isValid = true) hvalid _ _ hval)

theorem add_document_spec {D M : Type} (stem : String → String)
    {bs bs2 : DatabaseBuilder D M} {doc : DocumentData D M}
    (h : add_document stem bs doc = some bs2) :
    ((bs.doc_storage.map Prod.fst).Nodup → (bs2.doc_storage.map Prod.fst).Nodup) ∧
    ((doc.id, doc.data) ∈ bs2.doc_storage) ∧
    (∀ kv ∈ bs.doc_storage, kv.1 ≠ doc.id → kv ∈ bs2.doc_storage) ∧
    ((bs.sentence_map.map Prod.fst).Nodup → (bs2.sentence_map.map Prod.fst).Nodup) ∧
    (∀ kv ∈ bs.sentence_map, kv.1.doc ≠ doc.id → kv ∈ bs2.sentence_map) ∧
    (∀ j, j < doc.lines.length →
      ∃ s, ((⟨doc.id, j⟩ : SentenceId), s) ∈ bs2.sentence_map) ∧
    ((bs.term_to_sentence.map Prod.fst).Nodup →
      (bs2.term_to_sentence.map Prod.fst).Nodup) ∧
    ((∀ tl ∈ bs.term_to_sentence, ∀ v ∈ tl.2, v.isValid = true) →
      ∀ tl ∈ bs2.term_to_sentence, ∀ v ∈ tl.2, v.isValid = true) := by
  unfold add_document at h
  cases hsen : add_sentences stem doc.id 0 doc.lines bs with
  | none => rw [hsen] at h; cases h
  | some bsmid =>
    rw [hsen] at h
    simp only [Option.some.injEq] at h
    subst h
    obtain ⟨h1, h2, h3, h4, h5, h6, h7⟩ := add_sentences_spec stem doc.id doc.lines 0 bs bsmid hsen
    refine ⟨?_, ?_, ?_, ?_, ?_, ?_, h6, h7⟩
    · intro hnd
      show ((mapInsert doc.id doc.data bsmid.doc_storage).map Prod.fst).Nodup
      rw [h1]
      exact mapInsert_nodup hnd _ _
    · exact mem_mapInsert_self _ _ _
    · intro kv hkv hne
      rw [← h1] at hkv
      exact mem_mapInsert_of_ne hkv _ _ hne
    · exact h3
    · intro kv hkv hne
      exact h4 kv hkv (Or.inl hne)
    · intro j hj
      simpa using h5 j hj

theorem build_fold_spec {D M : Type} (stem : String → String) :
    ∀ (docs : List (DocumentData D M)) (bs0 bs : DatabaseBuilder D M),
      docs.foldlM (add_document stem) bs0 = some bs →
      ((bs0.doc_storage.map Prod.fst).Nodup → (bs.doc_storage.map Prod.fst).Nodup) ∧
      ((bs0.sentence_map.map Prod.fst).Nodup → (bs.sentence_map.map Prod.fst).Nodup) ∧
      ((bs0.term_to_sentence.map Prod.fst).Nodup →
        (bs.term_to_sentence.map Prod.fst).Nodup) ∧
      ((∀ tl ∈ bs0.term_to_sentence, ∀ v ∈ tl.2, v.isValid = true) →
        ∀ tl ∈ bs.term_to_sentence, ∀ v ∈ tl.2, v.isValid = true) ∧
      (∀ kv ∈ bs0.doc_storage, kv.1 ∉ docs.map (fun d => d.id) → kv ∈ bs.doc_storage) ∧
      (∀ kv ∈ bs0.sentence_map, kv.1.doc ∉ docs.map (fun d => d.id) →
        kv ∈ bs.sentence_map) ∧
      ((docs.map (fun d => d.id)).Nodup → ∀ d ∈ docs,
        ((d.id, d.data) ∈ bs.doc_storage ∧
          ∀ j, j < d.lines.length →
            ∃ s, ((⟨d.id, j⟩ : SentenceId), s) ∈ bs.sentence_map)) := by
  intro docs
  induction docs with
  | nil =>
    intro bs0 bs h
    simp only [List.foldlM_nil, Option.pure_def, Option.some.injEq] at h
    subst h
    exact ⟨fun h => h, fun h => h, fun h => h, fun h => h,
      fun kv hkv _ => hkv, fun kv hkv _ => hkv, fun _ d hd => absurd hd (by simp)⟩
  | cons doc rest ih =>
    intro bs0 bs h
    rw [List.foldlM_cons] at h
    cases hadd : add_document stem bs0 doc with
    | none => rw [hadd] at h; cases h
    | some bs1 =>
      rw [hadd] at h
      simp only [Option.bind_eq_bind, Option.some_bind] at h
      obtain ⟨a1, a2, a3, a4, a5, a6, a7, a8⟩ := add_document_spec stem hadd
      obtain ⟨r1, r2, r3, r4, r5, r6, r7⟩ := ih bs1 bs h
      refine ⟨fun hnd => r1 (a1 hnd), fun hnd => r2 (a4 hnd), fun hnd => r3 (a7 hnd),
        fun hval => r4 (a8 hval), ?_, ?_, ?_⟩
      · intro kv hkv hnot
        simp only [List.map_cons, List.mem_cons, not_or] at hnot
        exact r5 kv (a3 kv hkv hnot.1) (by simpa using hnot.2)
      · intro kv hkv hnot
        simp only [List.map_cons, List.mem_cons, not_or] at hnot
        exact r6 kv (a5 kv hkv hnot.1) (by simpa using hnot.2)
      · intro hnd d hd
        rw [List.map_cons, List.nodup_cons] at hnd
        rcases List.mem_cons.mp hd with rfl | hd2
        · constructor
          · exact r5 _ a2 (by simpa using hnd.1)
          · intro j hj
            obtain ⟨s, hs⟩ := a6 j hj
            refine ⟨s, r6 _ hs ?_⟩
            simpa using hnd.1
        · exact r7 hnd.2 d hd2

theorem build_all_facts {D M : Type} (stem : String → String)
    {docs : List (DocumentData D M)} {bs : DatabaseBuilder D M}
    (h : build_all stem docs = some bs) :
    ((bs.doc_storage.map Prod.fst).Nodup) ∧
    ((bs.sentence_map.map Prod.fst).Nodup) ∧
    ((bs.term_to_sentence.map Prod.fst).Nodup) ∧
    (∀ tl ∈ bs.term_to_sentence, ∀ v ∈ tl.2, v.isValid = true) ∧
    ((docs.map (fun d => d.id)).Nodup → ∀ d ∈ docs,
      ((d.id, d.data) ∈ bs.doc_storage ∧
        ∀ j, j < d.lines.length →
          ∃ s, ((⟨d.id, j⟩ : SentenceId), s) ∈ bs.sentence_map)) := by
  obtain ⟨r1, r2, r3, r4, _, _, r7⟩ := build_fold_spec stem docs (emptyBuilder D M) bs h
  exact ⟨r1 (by simp [emptyBuilder]), r2 (by simp [emptyBuilder]),
    r3 (by simp [emptyBuilder]), r4 (by intro tl htl; cases htl), r7⟩

/-- C2: build/load round-trip.  For a corpus with pairwise distinct document
ids, accumulated with `add_document` and finalized with `build_in` over
perfect hashers for the document and sentence key sets, and after
`Database::persist` followed by `Database::load` of the same directory
(external serialization assumed faithful, see `PersistedDb`): loading
reproduces the database exactly, `get_doc(id)` returns the originally added
payload for every document, and every sentence derived from a document's
text is retrievable from the sentence store under its `SentenceId`. -/
theorem C2_build_load_roundtrip {D M : Type} (stem : String → String)
    (docs : List (DocumentData D M)) (bs : DatabaseBuilder D M)
    (hIdx : Nat → Option Nat) (hSent : SentenceId → Option Nat)
    (hDoc : Nat → Option Nat) (dm : M)
    (hbuild : build_all stem docs = some bs)
    (hnd : (docs.map (fun d => d.id)).Nodup)
    (hpSent : PerfectOn hSent (bs.sentence_map.map Prod.fst))
    (hpDoc : PerfectOn hDoc (bs.doc_storage.map Prod.fst)) :
    DatabaseM.load (DatabaseM.persist (build_in bs hIdx hSent hDoc dm))
        = build_in bs hIdx hSent hDoc dm ∧
      ∀ d ∈ docs,
        (DatabaseM.load (DatabaseM.persist (build_in bs hIdx hSent hDoc dm))).get_doc d.id
            = some d.data ∧
          ∀ j, j < d.lines.length →
            ((DatabaseM.load (DatabaseM.persist (build_in bs hIdx hSent hDoc dm))).sentences.get
              (⟨d.id, j⟩ : SentenceId)).isSome = true := by
  obtain ⟨hndDoc, hndSent, _, _, hdocs⟩ := build_all_facts stem hbuild
  have hload : DatabaseM.load (DatabaseM.persist (build_in bs hIdx hSent hDoc dm))
      = build_in bs hIdx hSent hDoc dm := rfl
  refine ⟨hload, ?_⟩
  intro d hd
  obtain ⟨hmemdoc, hmemsent⟩ := hdocs hnd d hd
  constructor
  · rw [hload]
    exact buildImmMap_get hDoc bs.doc_storage hndDoc hpDoc (d.id, d.data) hmemdoc
  · intro j hj
    obtain ⟨s, hs⟩ := hmemsent j hj
    rw [hload]
    have := buildImmMap_get hSent bs.sentence_map hndSent hpSent (⟨d.id, j⟩, s) hs
    show ((buildImmMap hSent bs.sentence_map).get (⟨d.id, j⟩ : SentenceId)).isSome = true
    rw [this]
    rfl

/-- Witness for C2 on a one-document corpus (id 1, text "a", payload
"payload") with the evident perfect hashers: the loaded database returns the
payload and the single sentence is retrievable. -/
theorem C2_build_load_roundtrip_witness :
    build_all id c2demo_docs = some c2demo_bs ∧
    (c2demo_docs.map (fun d => d.id)).Nodup ∧
    PerfectOn (fun v => if v = (⟨1, 0⟩ : SentenceId) then some 0 else none)
      (c2demo_bs.sentence_map.map Prod.fst) ∧
    PerfectOn (fun k => if k = 1 then some 0 else none)
      (c2demo_bs.doc_storage.map Prod.fst) ∧
    (DatabaseM.load (DatabaseM.persist (build_in c2demo_bs (fun _ => some 0)
          (fun v => if v = (⟨1, 0⟩ : SentenceId) then some 0 else none)
          (fun k => if k = 1 then some 0 else none) ()))
        = build_in c2demo_bs (fun _ => some 0)
          (fun v => if v = (⟨1, 0⟩ : SentenceId) then some 0 else none)
          (fun k => if k = 1 then some 0 else none) () ∧
      ∀ d ∈ c2demo_docs,
        (DatabaseM.load (DatabaseM.persist (build_in c2demo_bs (fun _ => some 0)
            (fun v => if v = (⟨1, 0⟩ : SentenceId) then some 0 else none)
            (fun k => if k = 1 then some 0 else none) ()))).get_doc d.id = some d.data ∧
          ∀ j, j < d.lines.length →
            ((DatabaseM.load (DatabaseM.persist (build_in c2demo_bs (fun _ => some 0)
              (fun v => if v = (⟨1, 0⟩ : SentenceId) then some 0 else none)
              (fun k => if k = 1 then some 0 else none) ()))).sentences.get
                (⟨d.id, j⟩ : SentenceId)).isSome = true) :=
  ⟨rfl, by decide, by decide, by decide,
    C2_build_load_roundtrip id c2demo_docs c2demo_bs (fun _ => some 0)
      (fun v => if v = (⟨1, 0⟩ : SentenceId) then some 0 else none)
      (fun k => if k = 1 then some 0 else none) () rfl (by decide) (by decide) (by decide)⟩

/-- C5: output ordering.  (1) Every posting list the builder writes to disk
is strictly ascending in `(doc_id, sentence_index)` and tombstone-free;
(2) against any database with that invariant, the id list produced by every
query node (phrase, keywords, intersection, intersecting-phrase, union), for
every caller kind, is ascending on its non-tombstone entries - the entries
its iterator yields; (3) the iterator returned by `SearchEngine::query`
yields sentence ids in ascending order. -/
theorem C5_output_ordering :
    (∀ (D M : Type) (stem : String → String) (docs : List (DocumentData D M))
        (bs : DatabaseBuilder D M), build_all stem docs = some bs →
        ∀ tl ∈ build_postings bs, SortedLt tl.2 ∧ ∀ v ∈ tl.2, v.isValid = true) ∧
    (∀ (db : Db), WfDb db → ∀ (q : Qry) (c : CallerType),
        SortedLe (idlist_iter (find_sentence_ids db q c))) ∧
    (∀ (db : Db), WfDb db → ∀ (q : Qry) (ids : List SentenceId),
        run_query_ids db q = some ids → SortedLe ids) := by
  refine ⟨?_, ?_, ?_⟩
  · intro D M stem docs bs hbuild tl htl
    obtain ⟨_, _, _, hval, _⟩ := build_all_facts stem hbuild
    unfold build_postings at htl
    rcases List.mem_map.mp htl with ⟨p, hp, rfl⟩
    refine ⟨dedupAdj_sortedLt (sortIds_sorted p.2), ?_⟩
    intro v hv
    have : v ∈ p.2 := mem_sortIds.mp (mem_dedupAdj.mp hv)
    exact hval p hp v this
  · intro db hdb q c
    exact find_sentence_ids_iter_sorted db hdb q c
  · intro db hdb q ids hids
    unfold run_query_ids run_query at hids
    cases hrun : run_results_go db q
        ((find_sentence_ids db q .topLevel).filter (fun s => s.isValid)) with
    | none => rw [hrun] at hids; cases hids
    | some res =>
      rw [hrun] at hids
      have hids2 : res.map Prod.fst = ids := by simpa using hids
      subst hids2
      have hsub := run_results_go_ids_sublist db q _ res hrun
      exact SortedLe.sublist hsub (find_sentence_ids_iter_sorted db hdb q .topLevel)

/-- Witness for C5: the one-document demo corpus gives a strictly ascending
tombstone-free posting list for its single term; on the scenario database
(which satisfies the invariant), the keywords query `fox OR sand` produces
an ascending id list and its query iterator yields `(1,0), (2,0)` in
ascending order. -/
theorem C5_output_ordering_witness :
    build_all id c2demo_docs = some c2demo_bs ∧
    WfDb scenarioDb ∧
    run_query_ids scenarioDb (.keywords [4, 5] unitDF) = some [⟨1, 0⟩, ⟨2, 0⟩] ∧
    (∀ tl ∈ build_postings c2demo_bs, SortedLt tl.2 ∧ ∀ v ∈ tl.2, v.isValid = true) ∧
    SortedLe (idlist_iter
      (find_sentence_ids scenarioDb (.keywords [4, 5] unitDF) .topLevel)) ∧
    SortedLe [(⟨1, 0⟩ : SentenceId), ⟨2, 0⟩] :=
  ⟨rfl, scenarioDb_wf, by decide,
    C5_output_ordering.1 String Unit id c2demo_docs c2demo_bs rfl,
    C5_output_ordering.2.1 scenarioDb scenarioDb_wf (.keywords [4, 5] unitDF) .topLevel,
    C5_output_ordering.2.2 scenarioDb scenarioDb_wf (.keywords [4, 5] unitDF)
      [⟨1, 0⟩, ⟨2, 0⟩] (by decide)⟩

/-- C8: for all atoms `a`, `b`, `c`, the token sequence of `a AND b OR c` is
parsed by `query_grammar::expression` into `And(a, Or(b, c))`: OR is the
innermost non-atomic grammar level, so AND does not bind tighter than OR. -/
theorem C8_and_or_precedence (a b c : String) :
    query_grammar_expression
        [.ident a, .andTok, .ident b, .orTok, .ident c]
      = some (.and (.literal a) (.or (.literal b) (.literal c))) := rfl

/-- C6 (counterexample): on the scenario corpus, `"fox OR sand"` with
`optimize = true` does lower to the single `KeywordsQuery` over term ids
4 and 5 and does return exactly (1,0) and (2,0) - but each result leaves
`SearchEngine::query` with EMPTY `highlighted_parts`, not with highlights
spanning the matching word: `KeywordsQuery` inherits the trait's default
`filter_map`, which returns `true` without touching the result. -/
theorem C6_or_keywords_counterexample :
    Expression.parse scenario_tok unitDF true (.or (.literal "fox") (.literal "sand"))
      = .keywords [4, 5] unitDF
    ∧ run_query scenarioDb (.keywords [4, 5] unitDF)
      = some [(⟨1, 0⟩, []), (⟨2, 0⟩, [])]
    ∧ run_query scenarioDb (.keywords [4, 5] unitDF)
      ≠ some [(⟨1, 0⟩, [⟨16, 19⟩]), (⟨2, 0⟩, [⟨6, 10⟩])] :=
  ⟨rfl, rfl, by decide⟩

/-- C6: on the corpus doc 1 = "the quick brown fox", doc 2 = "quick sand is
slow", `parse_query("fox OR sand", trivial filter, optimize=true)` compiles
to a single `KeywordsQuery` over the two term ids (both sides being
single-term literals) and executing it through `SearchEngine::query` yields
exactly the results (1,0) and (2,0), each with empty `highlighted_parts`;
the word-only spans are produced by the query's `find_highlights`
(`KeywordHighlighter`), which callers must invoke separately. -/
theorem C6_or_keywords_amended :
    Expression.parse scenario_tok unitDF true (.or (.literal "fox") (.literal "sand"))
      = .keywords [4, 5] unitDF
    ∧ run_query scenarioDb (.keywords [4, 5] unitDF)
      = some [(⟨1, 0⟩, []), (⟨2, 0⟩, [])]
    ∧ keyword_highlight [4, 5] scenario_s1 = [⟨16, 19⟩]
    ∧ keyword_highlight [4, 5] scenario_s2 = [⟨6, 10⟩] :=
  ⟨rfl, rfl, rfl, rfl⟩

/-! ## Equivalence of the optimized and unoptimized lowerings (find stage) -/

theorem mem_find_and_node {db : Db} {qa qb : Qry} {c : CallerType} {v : SentenceId}
    (hv : v.isValid = true) :
    v ∈ find_sentence_ids db (.intersecting [qa, qb] unitDF) c ↔
      v ∈ find_sentence_ids db qa .intersection
        ∧ v ∈ find_sentence_ids db qb .intersection := by
  show v ∈ intersect_find_ids unitDF
      [find_sentence_ids db qa .intersection, find_sentence_ids db qb .intersection] ↔ _
  rw [mem_intersect_find_ids hv (by simp)]
  simp [unitDF]

theorem mem_find_or_node {db : Db} {qa qb : Qry} {c : CallerType} {v : SentenceId} :
    v ∈ find_sentence_ids db (.unionQ [qa, qb]) c ↔
      v.isValid = true ∧
        (v ∈ find_sentence_ids db qa .union ∨ v ∈ find_sentence_ids db qb .union) := by
  show v ∈ union_find_ids
      [find_sentence_ids db qa .union, find_sentence_ids db qb .union] ↔ _
  rw [mem_union_find_ids]
  simp

set_option maxHeartbeats 2000000 in
/-- Membership characterization of a lowered expression's find stage: for a
well-formed index and an expression whose literals all tokenize to at least
one term, a valid id is found iff the expression's denotation holds at it
and the document filter (when needed) accepts its document - uniformly in
the `optimize` flag and the caller kind. -/
theorem mem_parse_find {db : Db} (hidx : ∀ t, SortedLe (db.index t))
    (tok : String → List Nat) (df : DocFilter) (opt : Bool) {v : SentenceId}
    (hv : v.isValid = true) :
    ∀ e : Expression, litOK tok e = true → ∀ c : CallerType,
      (v ∈ find_sentence_ids db (Expression.parse tok df opt e) c ↔
        sem tok db v e ∧ (df.needed = true → df.filterDoc v.doc = true)) := by
  intro e
  induction e with
  | literal s =>
    intro hlit c
    have hne : tok s ≠ [] := by
      have h1 : (!(tok s).isEmpty) = true := hlit
      intro h0
      rw [h0] at h1
      simp at h1
    show v ∈ phrase_find_ids db df (tok s) ↔ _
    rw [mem_phrase_find_ids hv hidx]
    simp [sem, hne]
  | and l r ihl ihr =>
    intro hlit c
    have hl : litOK tok l = true ∧ litOK tok r = true := by
      simpa [litOK, Bool.and_eq_true] using hlit
    have hgen : ∀ (qa qb : Qry) (c0 : CallerType),
        (v ∈ find_sentence_ids db qa .intersection ↔
          sem tok db v l ∧ (df.needed = true → df.filterDoc v.doc = true)) →
        (v ∈ find_sentence_ids db qb .intersection ↔
          sem tok db v r ∧ (df.needed = true → df.filterDoc v.doc = true)) →
        (v ∈ find_sentence_ids db (.intersecting [qa, qb] unitDF) c0 ↔
          (sem tok db v l ∧ sem tok db v r) ∧
            (df.needed = true → df.filterDoc v.doc = true)) := by
      intro qa qb c0 ha hb
      rw [mem_find_and_node hv, ha, hb]
      constructor
      · rintro ⟨⟨hA, hF⟩, hB, _⟩
        exact ⟨⟨hA, hB⟩, hF⟩
      · rintro ⟨⟨hA, hB⟩, hF⟩
        exact ⟨⟨hA, hF⟩, hB, hF⟩
    cases opt with
    | false => exact hgen _ _ c (ihl hl.1 .intersection) (ihr hl.2 .intersection)
    | true =>
      rcases l with a | ⟨l1, l2⟩ | ⟨l1, l2⟩ <;> rcases r with b | ⟨r1, r2⟩ | ⟨r1, r2⟩
      · have hnea : tok a ≠ [] := by
          have h1 : (!(tok a).isEmpty) = true := hl.1
          intro h0
          rw [h0] at h1
          simp at h1
        have hneb : tok b ≠ [] := by
          have h1 : (!(tok b).isEmpty) = true := hl.2
          intro h0
          rw [h0] at h1
          simp at h1
        show v ∈ intersecting_phrase_find_ids db df [tok a, tok b] ↔ _
        rw [mem_intersecting_phrase_find_ids hv hidx
          (by simp [List.append_eq_nil, hnea])]
        simp only [sem, List.flatten, List.append_nil, List.forall_mem_append]
      all_goals exact hgen _ _ c (ihl hl.1 .intersection) (ihr hl.2 .intersection)
  | or l r ihl ihr =>
    intro hlit c
    have hl : litOK tok l = true ∧ litOK tok r = true := by
      simpa [litOK, Bool.and_eq_true] using hlit
    have hgen : ∀ (qa qb : Qry) (c0 : CallerType),
        (v ∈ find_sentence_ids db qa .union ↔
          sem tok db v l ∧ (df.needed = true → df.filterDoc v.doc = true)) →
        (v ∈ find_sentence_ids db qb .union ↔
          sem tok db v r ∧ (df.needed = true → df.filterDoc v.doc = true)) →
        (v ∈ find_sentence_ids db (.unionQ [qa, qb]) c0 ↔
          (sem tok db v l ∨ sem tok db v r) ∧
            (df.needed = true → df.filterDoc v.doc = true)) := by
      intro qa qb c0 ha hb
      rw [mem_find_or_node, ha, hb]
      simp only [hv, true_and]
      constructor
      · rintro (⟨hA, hF⟩ | ⟨hB, hF⟩)
        · exact ⟨Or.inl hA, hF⟩
        · exact ⟨Or.inr hB, hF⟩
      · rintro ⟨hA | hB, hF⟩
        · exact Or.inl ⟨hA, hF⟩
        · exact Or.inr ⟨hB, hF⟩
    cases opt with
    | false => exact hgen _ _ c (ihl hl.1 .union) (ihr hl.2 .union)
    | true =>
      rcases l with a | ⟨l1, l2⟩ | ⟨l1, l2⟩ <;> rcases r with b | ⟨r1, r2⟩ | ⟨r1, r2⟩
      · have hnea : tok a ≠ [] := by
          have h1 : (!(tok a).isEmpty) = true := hl.1
          intro h0
          rw [h0] at h1
          simp at h1
        have hneb : tok b ≠ [] := by
          have h1 : (!(tok b).isEmpty) = true := hl.2
          intro h0
          rw [h0] at h1
          simp at h1
        have hpe : Expression.parse tok df true (.or (.literal a) (.literal b))
            = if (tok a).length = 1 ∧ (tok b).length = 1 then
                Qry.keywords [(tok a).headD 0, (tok b).headD 0] df
              else Qry.unionQ [.phrase (tok a) df, .phrase (tok b) df] := rfl
        rw [hpe]
        by_cases hlen : (tok a).length = 1 ∧ (tok b).length = 1
        · rw [if_pos hlen]
          obtain ⟨x, hx⟩ := List.length_eq_one.mp hlen.1
          obtain ⟨y, hy⟩ := List.length_eq_one.mp hlen.2
          show v ∈ keywords_find_ids db df [(tok a).headD 0, (tok b).headD 0] c ↔ _
          rw [mem_keywords_find_ids hv hidx]
          rw [hx, hy]
          simp [sem, hx, hy]
        · rw [if_neg hlen]
          have ha : v ∈ find_sentence_ids db (Qry.phrase (tok a) df) .union ↔
              tok a ≠ [] ∧ (∀ t ∈ tok a, v ∈ db.index t) ∧
                (df.needed = true → df.filterDoc v.doc = true) :=
            mem_phrase_find_ids hv hidx
          have hb : v ∈ find_sentence_ids db (Qry.phrase (tok b) df) .union ↔
              tok b ≠ [] ∧ (∀ t ∈ tok b, v ∈ db.index t) ∧
                (df.needed = true → df.filterDoc v.doc = true) :=
            mem_phrase_find_ids hv hidx
          rw [mem_find_or_node, ha, hb]
          simp only [hv, hnea, hneb, ne_eq, not_false_eq_true, true_and, sem]
          constructor
          · rintro (⟨hA, hF⟩ | ⟨hB, hF⟩)
            · exact ⟨Or.inl hA, hF⟩
            · exact ⟨Or.inr hB, hF⟩
          · rintro ⟨hA | hB, hF⟩
            · exact Or.inl ⟨hA, hF⟩
            · exact Or.inr ⟨hB, hF⟩
      all_goals exact hgen _ _ c (ihl hl.1 .union) (ihr hl.2 .union)

/-- C3 (counterexample): on the scenario corpus, `"fox OR sand OR slow"`
(whose parse is the left-nested `Or` chain `c3ce`) yields DIFFERENT result
sets with and without optimization: the optimized tree lowers its left
`Or` to a `KeywordsQuery`, whose default `filter_map` contributes no
highlights, so sentence (1,0) - matched only through that branch - pools an
empty highlight list inside the enclosing union's `filter_map` and is
dropped; the unoptimized tree keeps it. -/
theorem C3_optimize_equivalence_counterexample :
    query_grammar_expression [.ident "fox", .orTok, .ident "sand", .orTok, .ident "slow"]
      = some c3ce
    ∧ run_query_ids scenarioDb (Expression.parse scenario_tok unitDF true c3ce)
      = some [⟨2, 0⟩]
    ∧ run_query_ids scenarioDb (Expression.parse scenario_tok unitDF false c3ce)
      = some [⟨1, 0⟩, ⟨2, 0⟩]
    ∧ run_query_ids scenarioDb (Expression.parse scenario_tok unitDF true c3ce)
      ≠ run_query_ids scenarioDb (Expression.parse scenario_tok unitDF false c3ce) :=
  ⟨rfl, rfl, rfl, by decide⟩

/-- C3: restricted to the find stage (the sentence-id sets before
`filter_map`), optimization is sound: for every database with a
well-formed index, every document filter, every expression whose literals
all tokenize to at least one term, and any caller kinds, the optimized and
unoptimized lowerings find exactly the same valid sentence ids; and on the
two-document corpus of scenario 1, `"quick AND fox"` yields the identical
single full-pipeline result (1,0), with highlights on both words, either
way. -/
theorem C3_optimize_equivalence_amended :
    (∀ (tok : String → List Nat) (db : Db) (df : DocFilter) (e : Expression)
        (c₁ c₂ : CallerType), WfDb db → litOK tok e = true →
      ∀ v : SentenceId, v.isValid = true →
        (v ∈ find_sentence_ids db (Expression.parse tok df true e) c₁ ↔
          v ∈ find_sentence_ids db (Expression.parse tok df false e) c₂))
    ∧ run_query scenarioDb
        (Expression.parse scenario_tok unitDF true (.and (.literal "quick") (.literal "fox")))
      = some [(⟨1, 0⟩, [⟨4, 9⟩, ⟨16, 19⟩])]
    ∧ run_query scenarioDb
        (Expression.parse scenario_tok unitDF false (.and (.literal "quick") (.literal "fox")))
      = some [(⟨1, 0⟩, [⟨4, 9⟩, ⟨16, 19⟩])] := by
  refine ⟨?_, rfl, rfl⟩
  intro tok db df e c₁ c₂ hwf hlit v hv
  rw [mem_parse_find hwf.sortedLe tok df true hv e hlit c₁,
    mem_parse_find hwf.sortedLe tok df false hv e hlit c₂]

/-- Concrete instantiation of the find-stage equivalence: the expression
`"fox" OR "slow"` on the scenario database at the valid id (2,0). -/
theorem C3_optimize_equivalence_witness :
    WfDb scenarioDb
    ∧ litOK scenario_tok (.or (.literal "fox") (.literal "slow")) = true
    ∧ SentenceId.isValid ⟨2, 0⟩ = true
    ∧ ((⟨2, 0⟩ : SentenceId) ∈ find_sentence_ids scenarioDb
          (Expression.parse scenario_tok unitDF true
            (.or (.literal "fox") (.literal "slow"))) .topLevel ↔
        (⟨2, 0⟩ : SentenceId) ∈ find_sentence_ids scenarioDb
          (Expression.parse scenario_tok unitDF false
            (.or (.literal "fox") (.literal "slow"))) .topLevel) :=
  ⟨scenarioDb_wf, by decide, by decide,
    C3_optimize_equivalence_amended.1 scenario_tok scenarioDb unitDF
      (.or (.literal "fox") (.literal "slow")) .topLevel .topLevel
      scenarioDb_wf (by decide) ⟨2, 0⟩ (by decide)⟩
